import Mathlib

/-!
Verification of `fork_aware_dict.py` (repository `fork_aware_dict`).

The development is a shallow embedding of the module `src/fork_aware_dict.py`:

* a file is a `List Nat` of byte values;
* Python `str` values are modelled as lists of Unicode scalar values
  (`List Nat` restricted by `ValidStr`), with a genuine UTF-8
  encoder/decoder modelling `str.encode("utf-8")` / `bytes.decode("utf-8")`;
* `struct.pack("Q", x)` / `struct.unpack("Q", b)` are modelled as a fixed
  eight-byte little-endian code (`pack64` / `unpack64`); `struct.unpack`
  raises `struct.error` whenever the buffer length differs from 8, which the
  model signals with `none`.  (`struct.error` derives directly from
  `Exception`, not from `ValueError`, which matters for error propagation.)
* `zlib.compress` / `zlib.decompress` are out of scope per the spec ("a
  black-box byte-stream compress/decompress primitive") and are modelled by
  an injective framing code whose decoder rejects ill-framed input, the way
  `zlib.decompress` raises `zlib.error` on malformed streams.  (`zlib.error`
  also derives directly from `Exception`, not `ValueError`.)
* Python slicing `b[i:j]` clamps out-of-range bounds and never fails; the
  model is `pyslice`.
* the caller-supplied strategy functions (`key_function`, `encoder`,
  `decoder`) may return a well-typed value, return a value of the wrong
  type, or raise; `FnRes` / `DecRes` record those three outcomes.
-/

namespace ForkAwareDict

/-- Little-endian value of a byte list, least significant byte first. -/
def leVal : List Nat → Nat
  | [] => 0
  | b :: rest => b + 256 * leVal rest

/-- Model of `struct.pack("Q", x)`: the eight little-endian bytes of `x`.
For `x < 2^64` this is exact; CPython would raise `struct.error` on larger
inputs, which the theorems exclude by hypothesis. -/
def pack64 (x : Nat) : List Nat :=
  [x % 256, x / 256 % 256, x / 256 ^ 2 % 256, x / 256 ^ 3 % 256,
   x / 256 ^ 4 % 256, x / 256 ^ 5 % 256, x / 256 ^ 6 % 256, x / 256 ^ 7 % 256]

/-- Model of the Python byte-slice `l[a:b]` (non-negative bounds, clamping). -/
def pyslice (l : List Nat) (a b : Nat) : List Nat := (l.take b).drop a

/-- Model of `struct.unpack("Q", b)[0]`: fails (raises `struct.error`,
modelled as `none`) unless the buffer holds exactly eight bytes. -/
def unpack64 (l : List Nat) : Option Nat :=
  if l.length = 8 then some (leVal l) else none

/-- Concatenation of the eight-byte encodings of a list of integers:
the byte content of an offset-table scratch file. -/
def packList : List Nat → List Nat
  | [] => []
  | w :: ws => pack64 w ++ packList ws

/-- Concatenation of a list of byte strings (a blob region). -/
def flatCat : List (List Nat) → List Nat
  | [] => []
  | x :: xs => x ++ flatCat xs

/-- Running prefix sums of `ls` starting at `a`, including the closing
sentinel: `prefixFrom a [l1, l2] = [a, a + l1, a + l1 + l2]`. -/
def prefixFrom (a : Nat) : List Nat → List Nat
  | [] => [a]
  | l :: ls => a :: prefixFrom (a + l) ls

/-- Sum of the first `i` entries of a list. -/
def sumTake : List Nat → Nat → Nat
  | _, 0 => 0
  | [], _ + 1 => 0
  | l :: ls, i + 1 => l + sumTake ls i

@[simp] theorem pack64_length (x : Nat) : (pack64 x).length = 8 := rfl

theorem leVal_pack64 (x : Nat) : leVal (pack64 x) = x % 2 ^ 64 := by
  simp only [pack64, leVal]
  omega

theorem unpack64_pack64 (x : Nat) (h : x < 2 ^ 64) :
    unpack64 (pack64 x) = some x := by
  rw [unpack64, if_pos (by simp [pack64]), leVal_pack64]
  congr 1
  omega

@[simp] theorem packList_length (ws : List Nat) :
    (packList ws).length = 8 * ws.length := by
  induction ws with
  | nil => rfl
  | cons w ws ih => simp [packList, ih]; ring

@[simp] theorem flatCat_length (xs : List (List Nat)) :
    (flatCat xs).length = (xs.map List.length).sum := by
  induction xs with
  | nil => rfl
  | cons x xs ih => simp [flatCat, ih]

@[simp] theorem prefixFrom_length (a : Nat) (ls : List Nat) :
    (prefixFrom a ls).length = ls.length + 1 := by
  induction ls generalizing a with
  | nil => rfl
  | cons l ls ih => simp [prefixFrom, ih]

theorem sumTake_zero (ls : List Nat) : sumTake ls 0 = 0 := by
  cases ls <;> rfl

theorem sumTake_succ (ls : List Nat) (i : Nat) (h : i < ls.length) :
    sumTake ls (i + 1) = sumTake ls i + ls.getD i 0 := by
  induction ls generalizing i with
  | nil => simp at h
  | cons l ls ih =>
    cases i with
    | zero => simp [sumTake, sumTake_zero]
    | succ j =>
      simp only [List.length_cons] at h
      simp [sumTake, ih j (by omega)]
      omega

theorem sumTake_le_sum (ls : List Nat) (i : Nat) : sumTake ls i ≤ ls.sum := by
  induction ls generalizing i with
  | nil => cases i <;> simp [sumTake]
  | cons l ls ih =>
    cases i with
    | zero => simp [sumTake]
    | succ j => simp only [sumTake, List.sum_cons]; exact Nat.add_le_add_left (ih j) l

theorem sumTake_length (ls : List Nat) : sumTake ls ls.length = ls.sum := by
  induction ls with
  | nil => rfl
  | cons l ls ih => simp [sumTake, ih]

theorem prefixFrom_getD (a : Nat) (ls : List Nat) (i : Nat) (h : i ≤ ls.length) :
    (prefixFrom a ls).getD i 0 = a + sumTake ls i := by
  induction ls generalizing a i with
  | nil =>
    have hi : i = 0 := by simpa using h
    subst hi
    simp [prefixFrom, sumTake]
  | cons l ls ih =>
    cases i with
    | zero => simp [prefixFrom, sumTake_zero]
    | succ j =>
      simp only [List.length_cons] at h
      simp only [prefixFrom, List.getD_cons_succ, sumTake]
      rw [ih (a + l) j (by omega)]
      omega

theorem prefixFrom_mem_le (a : Nat) (ls : List Nat) (w : Nat)
    (h : w ∈ prefixFrom a ls) : w ≤ a + ls.sum := by
  induction ls generalizing a with
  | nil => simp [prefixFrom] at h; omega
  | cons l ls ih =>
    simp only [prefixFrom, List.mem_cons] at h
    rcases h with h | h
    · omega
    · have := ih (a + l) h
      simp only [List.sum_cons]
      omega

theorem prefixFrom_getLastD' (a : Nat) (ls : List Nat) :
    ∀ d, (prefixFrom a ls).getLastD d = a + ls.sum := by
  induction ls generalizing a with
  | nil => intro d; simp [prefixFrom]
  | cons l ls ih =>
    intro d
    simp only [prefixFrom, List.sum_cons, List.getLastD_cons, ih (a + l) a]
    omega

theorem prefixFrom_getLastD (a : Nat) (ls : List Nat) :
    (prefixFrom a ls).getLastD 0 = a + ls.sum :=
  prefixFrom_getLastD' a ls 0

theorem pyslice_length (l : List Nat) (a b : Nat) :
    (pyslice l a b).length = min b l.length - a := by
  simp [pyslice]

theorem pyslice_append_inner (a b : List Nat) (x y : Nat) :
    pyslice (a ++ b) (a.length + x) (a.length + y) = pyslice b x y := by
  simp [pyslice, List.take_append, List.drop_append]

theorem pyslice_append_head (a b : List Nat) :
    pyslice (a ++ b) 0 a.length = a := by
  simp [pyslice, List.take_left]

theorem pyslice_take (l : List Nat) (a b t : Nat) (h : b ≤ t) :
    pyslice (l.take t) a b = pyslice l a b := by
  simp [pyslice, List.take_take, Nat.min_eq_left h]

/-- Slicing bytes `[8*i, 8*(i+1))` out of a packed offset table (followed by
anything) recovers the `i`-th packed integer. -/
theorem pyslice_packList (ws : List Nat) (rest : List Nat) (i : Nat)
    (h : i < ws.length) :
    pyslice (packList ws ++ rest) (8 * i) (8 * (i + 1)) = pack64 (ws.getD i 0) := by
  induction ws generalizing i rest with
  | nil => simp at h
  | cons w ws ih =>
    cases i with
    | zero =>
      have : pyslice (pack64 w ++ (packList ws ++ rest)) 0 (pack64 w).length = pack64 w :=
        pyslice_append_head _ _
      simpa [packList, List.append_assoc] using this
    | succ j =>
      simp only [List.length_cons] at h
      have h8 : 8 * (j + 1) = (pack64 w).length + 8 * j := by simp; ring
      have h8' : 8 * (j + 1 + 1) = (pack64 w).length + 8 * (j + 1) := by simp; ring
      calc pyslice (packList (w :: ws) ++ rest) (8 * (j + 1)) (8 * (j + 1 + 1))
          = pyslice (pack64 w ++ (packList ws ++ rest))
              ((pack64 w).length + 8 * j) ((pack64 w).length + 8 * (j + 1)) := by
            rw [← h8, ← h8']; simp [packList, List.append_assoc]
        _ = pyslice (packList ws ++ rest) (8 * j) (8 * (j + 1)) :=
            pyslice_append_inner _ _ _ _
        _ = pack64 (ws.getD j 0) := ih rest j (by omega)

/-- Slicing a concatenated blob (followed by anything) at consecutive
prefix-sum boundaries recovers the `i`-th piece. -/
theorem pyslice_flatCat (xs : List (List Nat)) (rest : List Nat) (i : Nat)
    (h : i < xs.length) :
    pyslice (flatCat xs ++ rest) (sumTake (xs.map List.length) i)
      (sumTake (xs.map List.length) (i + 1)) = xs.getD i [] := by
  induction xs generalizing i rest with
  | nil => simp at h
  | cons x xs ih =>
    cases i with
    | zero =>
      have : pyslice (x ++ (flatCat xs ++ rest)) 0 x.length = x :=
        pyslice_append_head _ _
      simpa [flatCat, List.append_assoc, sumTake, sumTake_zero] using this
    | succ j =>
      simp only [List.length_cons] at h
      have e1 : sumTake ((x :: xs).map List.length) (j + 1)
          = x.length + sumTake (xs.map List.length) j := by simp [sumTake]
      have e2 : sumTake ((x :: xs).map List.length) (j + 1 + 1)
          = x.length + sumTake (xs.map List.length) (j + 1) := by simp [sumTake]
      calc pyslice (flatCat (x :: xs) ++ rest)
              (sumTake ((x :: xs).map List.length) (j + 1))
              (sumTake ((x :: xs).map List.length) (j + 1 + 1))
          = pyslice (x ++ (flatCat xs ++ rest))
              (x.length + sumTake (xs.map List.length) j)
              (x.length + sumTake (xs.map List.length) (j + 1)) := by
            rw [e1, e2]; simp [flatCat, List.append_assoc]
        _ = pyslice (flatCat xs ++ rest) (sumTake (xs.map List.length) j)
              (sumTake (xs.map List.length) (j + 1)) := pyslice_append_inner _ _ _ _
        _ = xs.getD j [] := ih rest j (by omega)

theorem getD_eq_headD_drop {α : Type} (l : List α) (i : Nat) (d : α) :
    l.getD i d = (l.drop i).headD d := by
  induction l generalizing i with
  | nil => cases i <;> rfl
  | cons x l ih => cases i with
    | zero => rfl
    | succ j => simp only [List.getD_cons_succ, List.drop_succ_cons]; exact ih j

/-- A Unicode scalar value: any code point except the UTF-16 surrogate
range.  Python `str` values consist of such scalars (a lone surrogate makes
`str.encode("utf-8")` raise, so the theorems restrict to encodable text). -/
def ValidScalar (c : Nat) : Prop := c < 55296 ∨ (57344 ≤ c ∧ c < 1114112)

instance (c : Nat) : Decidable (ValidScalar c) := by
  unfold ValidScalar; infer_instance

/-- A Python string, modelled as its list of Unicode scalar values. -/
def ValidStr (s : List Nat) : Prop := ∀ c ∈ s, ValidScalar c

instance (s : List Nat) : Decidable (ValidStr s) := by
  unfold ValidStr; infer_instance

/-- UTF-8 encoding of a single scalar value (model of what
`str.encode("utf-8")` emits per character). -/
def utf8EncodeChar (c : Nat) : List Nat :=
  if c < 128 then [c]
  else if c < 2048 then [192 + c / 64, 128 + c % 64]
  else if c < 65536 then [224 + c / 4096, 128 + c / 64 % 64, 128 + c % 64]
  else [240 + c / 262144, 128 + c / 4096 % 64, 128 + c / 64 % 64, 128 + c % 64]

/-- UTF-8 encoding of a string: model of `key.encode("utf-8")`. -/
def utf8Encode : List Nat → List Nat
  | [] => []
  | c :: cs => utf8EncodeChar c ++ utf8Encode cs

/-- Continuation byte predicate for UTF-8 (`10xxxxxx`). -/
def IsCont (b : Nat) : Prop := 128 ≤ b ∧ b < 192

instance (b : Nat) : Decidable (IsCont b) := by
  unfold IsCont; infer_instance

/-- One step of strict UTF-8 decoding: reads the leading scalar of a byte
string, rejecting truncated sequences, bad continuation bytes, overlong
forms, surrogates and out-of-range leads — the checks CPython's strict
`bytes.decode("utf-8")` performs per character. -/
def utf8Step : List Nat → Option (Nat × List Nat)
  | [] => none
  | b :: rest =>
    if b < 128 then some (b, rest)
    else if b < 194 then none
    else if b < 224 then
      match rest with
      | b1 :: rest2 =>
        if IsCont b1 then some ((b - 192) * 64 + (b1 - 128), rest2) else none
      | [] => none
    else if b < 240 then
      match rest with
      | b1 :: b2 :: rest3 =>
        if IsCont b1 ∧ IsCont b2 ∧ (b = 224 → 160 ≤ b1) ∧ (b = 237 → b1 < 160) then
          some ((b - 224) * 4096 + (b1 - 128) * 64 + (b2 - 128), rest3)
        else none
      | _ => none
    else if b < 245 then
      match rest with
      | b1 :: b2 :: b3 :: rest4 =>
        if IsCont b1 ∧ IsCont b2 ∧ IsCont b3 ∧ (b = 240 → 144 ≤ b1) ∧ (b = 244 → b1 < 144) then
          some ((b - 240) * 262144 + (b1 - 128) * 4096 + (b2 - 128) * 64 + (b3 - 128), rest4)
        else none
      | _ => none
    else none

theorem utf8Step_length (l : List Nat) (c : Nat) (rest : List Nat)
    (h : utf8Step l = some (c, rest)) : rest.length < l.length := by
  cases l with
  | nil => simp [utf8Step] at h
  | cons b r =>
    simp only [utf8Step] at h
    split_ifs at h with h1 h2 h3 h4 h5
    · simp only [Option.some.injEq, Prod.mk.injEq] at h
      simp [← h.2]
    · split at h
      · split_ifs at h
        simp only [Option.some.injEq, Prod.mk.injEq] at h
        simp only [← h.2]
        simp only [List.length_cons] at *
        omega
      · simp at h
    · split at h
      · split_ifs at h
        simp only [Option.some.injEq, Prod.mk.injEq] at h
        simp only [← h.2]
        simp only [List.length_cons] at *
        omega
      · simp at h
    · split at h
      · split_ifs at h
        simp only [Option.some.injEq, Prod.mk.injEq] at h
        simp only [← h.2]
        simp only [List.length_cons] at *
        omega
      · simp at h

/-- Fuel-indexed driver for UTF-8 decoding; each step consumes at least one
byte, so fuel `l.length` is always sufficient (`utf8DecodeAux_fuel`). -/
def utf8DecodeAux : Nat → List Nat → Option (List Nat)
  | _, [] => some []
  | 0, _ :: _ => none
  | fuel + 1, b :: rest =>
    match utf8Step (b :: rest) with
    | none => none
    | some (c, rest') => (utf8DecodeAux fuel rest').map (c :: ·)

theorem utf8DecodeAux_fuel (f1 : Nat) : ∀ (f2 : Nat) (l : List Nat),
    l.length ≤ f1 → l.length ≤ f2 → utf8DecodeAux f1 l = utf8DecodeAux f2 l := by
  induction f1 with
  | zero =>
    intro f2 l h1 _
    have : l = [] := by
      cases l
      · rfl
      · simp at h1
    subst this
    cases f2 <;> rfl
  | succ f1 ih =>
    intro f2 l h1 h2
    cases l with
    | nil => cases f2 <;> rfl
    | cons b rest =>
      cases f2 with
      | zero => simp at h2
      | succ f2 =>
        cases hs : utf8Step (b :: rest) with
        | none => simp only [utf8DecodeAux, hs]
        | some p =>
          obtain ⟨c, rest'⟩ := p
          have hlen := utf8Step_length _ _ _ hs
          simp only [List.length_cons] at hlen h1 h2
          simp only [utf8DecodeAux, hs]
          rw [ih f2 rest' (by omega) (by omega)]

/-- Strict UTF-8 decoding of a whole byte string: model of
`bytes.decode("utf-8")`; `none` models a raised `UnicodeDecodeError`
(a subclass of `ValueError`). -/
def utf8Decode (l : List Nat) : Option (List Nat) := utf8DecodeAux l.length l

theorem utf8Step_encodeChar (c : Nat) (hc : ValidScalar c) (t : List Nat) :
    utf8Step (utf8EncodeChar c ++ t) = some (c, t) := by
  rcases Nat.lt_or_ge c 128 with h1 | h1
  · have e : utf8EncodeChar c = [c] := by rw [utf8EncodeChar, if_pos h1]
    rw [e, List.singleton_append]
    simp only [utf8Step]
    rw [if_pos h1]
  · rcases Nat.lt_or_ge c 2048 with h2 | h2
    · have e : utf8EncodeChar c = [192 + c / 64, 128 + c % 64] := by
        rw [utf8EncodeChar, if_neg (by omega), if_pos h2]
      rw [e]
      show utf8Step ((192 + c / 64) :: (128 + c % 64) :: t) = some (c, t)
      simp only [utf8Step]
      rw [if_neg (by omega), if_neg (by omega), if_pos (by omega),
        if_pos (by constructor <;> omega)]
      have he : (192 + c / 64 - 192) * 64 + (128 + c % 64 - 128) = c := by omega
      rw [he]
    · rcases Nat.lt_or_ge c 65536 with h3 | h3
      · have hsur : c < 55296 ∨ 57344 ≤ c := by
          rcases hc with h | h
          · exact Or.inl h
          · exact Or.inr h.1
        have e : utf8EncodeChar c = [224 + c / 4096, 128 + c / 64 % 64, 128 + c % 64] := by
          rw [utf8EncodeChar, if_neg (by omega), if_neg (by omega), if_pos h3]
        rw [e]
        show utf8Step ((224 + c / 4096) :: (128 + c / 64 % 64) :: (128 + c % 64) :: t)
          = some (c, t)
        simp only [utf8Step]
        rw [if_neg (by omega), if_neg (by omega), if_neg (by omega), if_pos (by omega),
          if_pos (by
            refine ⟨?_, ?_, ?_, ?_⟩
            · constructor <;> omega
            · constructor <;> omega
            · intro hb; omega
            · intro hb; omega)]
        have he : (224 + c / 4096 - 224) * 4096 + (128 + c / 64 % 64 - 128) * 64
            + (128 + c % 64 - 128) = c := by omega
        rw [he]
      · have h4 : c < 1114112 := by
          rcases hc with h | h
          · omega
          · exact h.2
        have e : utf8EncodeChar c
            = [240 + c / 262144, 128 + c / 4096 % 64, 128 + c / 64 % 64, 128 + c % 64] := by
          rw [utf8EncodeChar, if_neg (by omega), if_neg (by omega), if_neg (by omega)]
        rw [e]
        show utf8Step ((240 + c / 262144) :: (128 + c / 4096 % 64) :: (128 + c / 64 % 64)
            :: (128 + c % 64) :: t) = some (c, t)
        simp only [utf8Step]
        rw [if_neg (by omega), if_neg (by omega), if_neg (by omega), if_neg (by omega),
          if_pos (by omega),
          if_pos (by
            refine ⟨?_, ?_, ?_, ?_, ?_⟩
            · constructor <;> omega
            · constructor <;> omega
            · constructor <;> omega
            · intro hb; omega
            · intro hb; omega)]
        have he : (240 + c / 262144 - 240) * 262144 + (128 + c / 4096 % 64 - 128) * 4096
            + (128 + c / 64 % 64 - 128) * 64 + (128 + c % 64 - 128) = c := by omega
        rw [he]

theorem utf8Decode_cons (b : Nat) (rest : List Nat) :
    utf8Decode (b :: rest) =
      match utf8Step (b :: rest) with
      | none => none
      | some (c, rest') => (utf8Decode rest').map (c :: ·) := by
  cases hs : utf8Step (b :: rest) with
  | none =>
    show utf8DecodeAux (rest.length + 1) (b :: rest) = none
    simp only [utf8DecodeAux, hs]
  | some p =>
    obtain ⟨c, rest'⟩ := p
    have hlen := utf8Step_length _ _ _ hs
    simp only [List.length_cons] at hlen
    show utf8DecodeAux (rest.length + 1) (b :: rest) = (utf8Decode rest').map (c :: ·)
    simp only [utf8DecodeAux, hs]
    show Option.map _ (utf8DecodeAux rest.length rest')
      = Option.map _ (utf8DecodeAux rest'.length rest')
    exact congrArg _ (utf8DecodeAux_fuel rest.length rest'.length rest' (by omega) le_rfl)

theorem utf8Decode_encodeChar_append (c : Nat) (hc : ValidScalar c) (t : List Nat) :
    utf8Decode (utf8EncodeChar c ++ t) = (utf8Decode t).map (c :: ·) := by
  obtain ⟨b, bs, e⟩ : ∃ b bs, utf8EncodeChar c = b :: bs := by
    unfold utf8EncodeChar
    split_ifs <;> exact ⟨_, _, rfl⟩
  have hs : utf8Step (b :: (bs ++ t)) = some (c, t) := by
    rw [← List.cons_append, ← e]
    exact utf8Step_encodeChar c hc t
  rw [e, List.cons_append, utf8Decode_cons, hs]

/-- Decoding inverts encoding on every encodable Python string: the model
of `(s.encode("utf-8")).decode("utf-8") == s`. -/
theorem utf8Decode_utf8Encode (s : List Nat) (hs : ValidStr s) :
    utf8Decode (utf8Encode s) = some s := by
  induction s with
  | nil => rfl
  | cons c cs ih =>
    have hc : ValidScalar c := hs c (List.mem_cons_self c cs)
    have hcs : ValidStr cs := fun x hx => hs x (List.mem_cons_of_mem c hx)
    rw [utf8Encode, utf8Decode_encodeChar_append c hc, ih hcs, Option.map_some']

/-- Model of `zlib.compress`.  The spec treats compression as a black-box
byte-stream primitive; the model is an injective framing code (zlib streams
likewise start with a fixed header byte). -/
def compress (b : List Nat) : List Nat := 120 :: b

/-- Model of `zlib.decompress`: inverts `compress` and fails (raises
`zlib.error`, a direct subclass of `Exception`, NOT of `ValueError`) on
input that is not a well-formed compressed stream. -/
def decompress : List Nat → Option (List Nat)
  | 120 :: rest => some rest
  | _ => none

theorem decompress_compress (b : List Nat) : decompress (compress b) = some b := rfl

/-- Outcome of calling a caller-supplied strategy function (`key_function`
or `encoder`) on one entry: it returns a well-typed value, returns a value
of the wrong type, or raises an exception. -/
inductive FnRes (α : Type) where
  | ok (a : α)
  | wrongType
  | raised

/-- How a call to `ForkAwareDict.create` fails: `dictError` is
`ForkAwareDict.Error` (raised explicitly by `create`), `typeError` is the
uncaught `TypeError` that `zlib.compress` raises when the encoder returned
a non-bytes value. -/
inductive CreateErr where
  | dictError
  | typeError
deriving DecidableEq

/-- The per-entry loop of `ForkAwareDict.create` (lines 182-211 of
`fork_aware_dict.py`).  Arguments `off` and `koff` are the running
compressed-byte and key-byte counters; the result is
`(num_records, keys_offset_bytes, keys_bytes, data_offset_bytes,
data_bytes)` — the contents of the four scratch files, including the
closing sentinel written after the loop.  Failure order follows the
source: `key_function` is called first (any exception becomes
`cls.Error`), then `encoder` (same), then the `isinstance(key, str)`
check (`cls.Error`), then `zlib.compress` (uncaught `TypeError` if the
encoder's result is not bytes-like). -/
def createLoop {E : Type} (keyFn : E → FnRes (List Nat)) (encFn : E → FnRes (List Nat)) :
    List E → Nat → Nat → Except CreateErr (Nat × List Nat × List Nat × List Nat × List Nat)
  | [], off, koff => .ok (0, pack64 koff, [], pack64 off, [])
  | e :: rest, off, koff =>
    match keyFn e with
    | .raised => .error .dictError
    | kres =>
      match encFn e with
      | .raised => .error .dictError
      | eres =>
        match kres with
        | .raised => .error .dictError
        | .wrongType => .error .dictError
        | .ok key =>
          match eres with
          | .raised => .error .dictError
          | .wrongType => .error .typeError
          | .ok entryBytes =>
            let binary_data := compress entryBytes
            let binary_key := utf8Encode key
            match createLoop keyFn encFn rest (off + binary_data.length)
                (koff + binary_key.length) with
            | .error err => .error err
            | .ok (n, kob, kb, dob, db) =>
              .ok (n + 1, pack64 koff ++ kob, binary_key ++ kb,
                   pack64 off ++ dob, binary_data ++ db)

/-- Model of `ForkAwareDict.create`: runs the entry loop and concatenates
header, key-offset table, key blob, value-offset table and value blob into
the final file (the fixed copy order of lines 218-237). -/
def create {E : Type} (keyFn : E → FnRes (List Nat)) (encFn : E → FnRes (List Nat))
    (iterable : List E) : Except CreateErr (List Nat) :=
  match createLoop keyFn encFn iterable 0 0 with
  | .error err => .error err
  | .ok (n, kob, kb, dob, db) => .ok (pack64 n ++ kob ++ kb ++ dob ++ db)

/-- The default `key_function`, `lambda x: x[0]`, on a pair of strings. -/
def defKeyFn (p : List Nat × List Nat) : FnRes (List Nat) := .ok p.1

/-- The default `encoder`, `lambda e: e[1].encode("utf-8")`, on a pair of
strings. -/
def defEncFn (p : List Nat × List Nat) : FnRes (List Nat) := .ok (utf8Encode p.2)

/-- How `ForkAwareDict.__init__` fails: `brokenFormat` is the
`ForkAwareDict.Error` re-raised from a caught `ValueError`; `structError`
is an uncaught `struct.error` (which is NOT a `ValueError` and escapes the
`except ValueError` handler). -/
inductive InitErr where
  | brokenFormat
  | structError
deriving DecidableEq

/-- How `ForkAwareDict.get` escapes with an exception: `zlibError` is an
uncaught `zlib.error` from `zlib.decompress` (not a `ValueError`), and
`otherError` is any non-`ValueError` exception raised by the caller's
decoder. -/
inductive GetErr where
  | zlibError
  | otherError
deriving DecidableEq

/-- Outcome of the caller-supplied `decoder` strategy on decompressed
bytes: a value, a raised `ValueError` (caught by `get`), or a raised
non-`ValueError` exception (uncaught). -/
inductive DecRes (V : Type) where
  | ok (v : V)
  | valueError
  | otherError

/-- A `get` key: Python accepts any hashable object; only its being a
`str` (and which one) matters for lookup under standard equality, since
`plain_index` holds only `str` keys. -/
inductive PyKey where
  | str (s : List Nat)
  | nonStr (tag : Nat)
deriving DecidableEq

/-- The state of an opened `ForkAwareDict`: the parsed `plain_index`
(association list in insertion order — later inserts shadow earlier ones,
like a Python dict), the backing bytes `self._idx`, the access mode and
the decoder. -/
structure Store (V : Type) where
  plain_index : List (List Nat × Nat × Nat)
  idx : List Nat
  inMemory : Bool
  decoder : List Nat → DecRes V

/-- Last-match lookup: the latest hit in the list wins, modelling lookup
in a Python dict built by repeated assignment in list order (later
assignments overwrite earlier ones). -/
def lastHit {α β : Type} (f : α → Option β) : List α → Option β
  | [] => none
  | x :: l =>
    match lastHit f l with
    | some b => some b
    | none => f x

/-- Whether a `get` key equals a given `str` key of `plain_index` under
Python's standard equality (a non-`str` value never equals a `str`). -/
def keyMatches (k : PyKey) (s : List Nat) : Bool :=
  match k with
  | .str t => decide (t = s)
  | .nonStr _ => false

/-- Model of `self.plain_index.get(key)`. -/
def dictGet (l : List (List Nat × Nat × Nat)) (k : PyKey) : Option (Nat × Nat) :=
  lastHit (fun ent => if keyMatches k ent.1 then some ent.2 else none) l

/-- The `keys_offsets` loop of `__init__` (lines 87-90): for `i` in
`range(count)` starting at logical index `i0`, unpack the eight bytes at
`[(i+1)*8, (i+2)*8)`; any short read is an (uncaught) `struct.error`. -/
def readOffsetsAux (idx : List Nat) : Nat → Nat → Option (List Nat)
  | _, 0 => some []
  | i, count + 1 =>
    match unpack64 (pyslice idx ((i + 1) * 8) ((i + 2) * 8)) with
    | none => none
    | some v =>
      match readOffsetsAux idx (i + 1) count with
      | none => none
      | some rest => some (v :: rest)

/-- The record loop of `__init__` (lines 96-122): for each record, slice
and UTF-8-decode the key (a `UnicodeDecodeError` is a `ValueError`, caught
and re-raised as `ForkAwareDict.Error`), unpack `start` and `end` from the
value-offset table (`struct.error` is uncaught), and record the absolute
byte range.  Records are accumulated in iteration order. -/
def initLoop (idx : List Nat) (keys_start dkos dso : Nat) (ko : List Nat) :
    Nat → Nat → Except InitErr (List (List Nat × Nat × Nat))
  | _, 0 => .ok []
  | i, count + 1 =>
    match utf8Decode (pyslice idx (keys_start + ko.getD i 0) (keys_start + ko.getD (i + 1) 0)) with
    | none => .error .brokenFormat
    | some key =>
      match unpack64 (pyslice idx (dkos + i * 8) (dkos + (i + 1) * 8)) with
      | none => .error .structError
      | some s =>
        match unpack64 (pyslice idx (dkos + (i + 1) * 8) (dkos + (i + 2) * 8)) with
        | none => .error .structError
        | some e =>
          match initLoop idx keys_start dkos dso ko (i + 1) count with
          | .error err => .error err
          | .ok rest => .ok ((key, dso + s, dso + e) :: rest)

/-- The parsing core of `ForkAwareDict.__init__` (lines 85-122): read the
header, the key-offset table, derive the region starts
(`keys_start = 8 * (num_records + 2)`,
`data_keys_offsets_start = keys_start + keys_offsets[-1]`,
`data_start_offset = data_keys_offsets_start + (num_records + 1) * 8`) and
run the record loop. -/
def initCore (idx : List Nat) : Except InitErr (List (List Nat × Nat × Nat)) :=
  match unpack64 (pyslice idx 0 8) with
  | none => .error .structError
  | some num_records =>
    match readOffsetsAux idx 0 (num_records + 1) with
    | none => .error .structError
    | some keys_offsets =>
      let keys_start := 8 * (num_records + 2)
      let data_keys_offsets_start := keys_start + keys_offsets.getLastD 0
      let data_start_offset := data_keys_offsets_start + (num_records + 1) * 8
      initLoop idx keys_start data_keys_offsets_start data_start_offset
        keys_offsets 0 num_records

/-- Model of `ForkAwareDict.__init__`.  `fileBytes` is the file's content;
with `in_memory=False`, `mmap.mmap(f.fileno(), 0)` on an empty file raises
`ValueError` (caught, re-raised as `ForkAwareDict.Error`); in both modes
the backing view exposes the same bytes, so the parse is shared. -/
def init {V : Type} (fileBytes : List Nat) (in_memory : Bool)
    (decoder : List Nat → DecRes V) : Except InitErr (Store V) :=
  if !in_memory && fileBytes.length == 0 then .error .brokenFormat
  else
    match initCore fileBytes with
    | .error err => .error err
    | .ok pix => .ok ⟨pix, fileBytes, in_memory, decoder⟩

/-- Model of `ForkAwareDict.get` (lines 127-144): a `plain_index` miss
returns the default; a hit slices the byte range, decompresses
(`zlib.error` escapes: not a `ValueError`) and decodes (only a
`ValueError` from the decoder is caught and turned into the default). -/
def get {V : Type} (st : Store V) (key : PyKey) (dflt : V) : Except GetErr V :=
  match dictGet st.plain_index key with
  | none => .ok dflt
  | some (s, e) =>
    match decompress (pyslice st.idx s e) with
    | none => .error .zlibError
    | some d =>
      match st.decoder d with
      | .ok v => .ok v
      | .valueError => .ok dflt
      | .otherError => .error .otherError

/-- The default `decoder`, `lambda e: e.decode("utf-8")`: a failed decode
raises `UnicodeDecodeError`, a subclass of `ValueError`. -/
def defaultDecoder (b : List Nat) : DecRes (List Nat) :=
  match utf8Decode b with
  | some s => .ok s
  | none => .valueError

/-- Projection used to state facts about a completed open: the
`plain_index` of the store when `init` succeeded, `none` when it failed. -/
def storePlainIndex {V : Type} : Except InitErr (Store V) → Option (List (List Nat × Nat × Nat))
  | .error _ => none
  | .ok st => some st.plain_index

/-- Build with the default codec, open with the default decoder, then
query: `none` when build or open failed, otherwise the outcome of `get`. -/
def roundTrip (pairs : List (List Nat × List Nat)) (k : PyKey) (d : List Nat) :
    Option (Except GetErr (List Nat)) :=
  match create defKeyFn defEncFn pairs with
  | .error _ => none
  | .ok f =>
    match init f true defaultDecoder with
    | .error _ => none
    | .ok st => some (get st k d)

/-- The value of the last entry with the given key, in input order:
Python-dict overwrite semantics on duplicate keys. -/
def lastVal (pairs : List (List Nat × List Nat)) (k : List Nat) : Option (List Nat) :=
  lastHit (fun p => if p.1 = k then some p.2 else none) pairs

theorem lastHit_cons {α β : Type} (f : α → Option β) (x : α) (l : List α) :
    lastHit f (x :: l)
      = match lastHit f l with | some b => some b | none => f x := rfl

theorem lastHit_nil {α β : Type} (f : α → Option β) : lastHit f ([] : List α) = none := rfl

/-- The UTF-8 bytes of an entry's key under the default codec. -/
def keyBytes (p : List Nat × List Nat) : List Nat := utf8Encode p.1

/-- The compressed payload of an entry under the default codec. -/
def chunkOf (p : List Nat × List Nat) : List Nat := compress (utf8Encode p.2)

/-- Raw key byte lengths of the input entries. -/
def kLens (pairs : List (List Nat × List Nat)) : List Nat :=
  pairs.map fun p => (keyBytes p).length

/-- Compressed payload byte lengths of the input entries. -/
def cLens (pairs : List (List Nat × List Nat)) : List Nat :=
  pairs.map fun p => (chunkOf p).length

/-- The file `create` produces under the default codec: header, key-offset
table, key blob, value-offset table, value blob. -/
def createdFile (pairs : List (List Nat × List Nat)) : List Nat :=
  pack64 pairs.length ++
    (packList (prefixFrom 0 (kLens pairs)) ++
      (flatCat (pairs.map keyBytes) ++
        (packList (prefixFrom 0 (cLens pairs)) ++ flatCat (pairs.map chunkOf))))

theorem createLoop_default (pairs : List (List Nat × List Nat)) :
    ∀ off koff : Nat,
      createLoop defKeyFn defEncFn pairs off koff =
        .ok (pairs.length,
             packList (prefixFrom koff (kLens pairs)),
             flatCat (pairs.map keyBytes),
             packList (prefixFrom off (cLens pairs)),
             flatCat (pairs.map chunkOf)) := by
  induction pairs with
  | nil =>
    intro off koff
    simp [createLoop, kLens, cLens, prefixFrom, packList, flatCat]
  | cons p rest ih =>
    intro off koff
    show createLoop defKeyFn defEncFn (p :: rest) off koff = _
    simp only [createLoop, defKeyFn, defEncFn]
    rw [ih (off + (compress (utf8Encode p.2)).length) (koff + (utf8Encode p.1).length)]
    simp [kLens, cLens, keyBytes, chunkOf, prefixFrom, packList, flatCat]

theorem create_default_eq (pairs : List (List Nat × List Nat)) :
    create defKeyFn defEncFn pairs = .ok (createdFile pairs) := by
  unfold create
  rw [createLoop_default pairs 0 0]
  simp [createdFile]

/-- The `data_keys_offsets_start` of a created file: absolute start of the
value-offset table. -/
def dkosOf (pairs : List (List Nat × List Nat)) : Nat :=
  8 * (pairs.length + 2) + (kLens pairs).sum

/-- The `data_start_offset` of a created file: absolute start of the value
blob. -/
def dsoOf (pairs : List (List Nat × List Nat)) : Nat :=
  dkosOf pairs + 8 * (pairs.length + 1)

@[simp] theorem kLens_length (pairs : List (List Nat × List Nat)) :
    (kLens pairs).length = pairs.length := by simp [kLens]

@[simp] theorem cLens_length (pairs : List (List Nat × List Nat)) :
    (cLens pairs).length = pairs.length := by simp [cLens]

theorem map_length_keyBytes (pairs : List (List Nat × List Nat)) :
    (pairs.map keyBytes).map List.length = kLens pairs := by
  simp [kLens, List.map_map]

theorem map_length_chunkOf (pairs : List (List Nat × List Nat)) :
    (pairs.map chunkOf).map List.length = cLens pairs := by
  simp [cLens, List.map_map]

theorem getD_append_at (pre : List Nat) (w : Nat) (t : List Nat) :
    (pre ++ w :: t).getD pre.length 0 = w := by
  induction pre with
  | nil => rfl
  | cons x pre ih => simpa using ih

theorem readOffsetsAux_packed (ws : List Nat) : ∀ (pre : List Nat) (rest : List Nat),
    pre ≠ [] → (∀ w ∈ ws, w < 2 ^ 64) →
    readOffsetsAux (packList (pre ++ ws) ++ rest) (pre.length - 1) ws.length = some ws := by
  induction ws with
  | nil => intro pre rest _ _; rfl
  | cons w ws ih =>
    intro pre rest hpre hws
    obtain ⟨q, qs, hq⟩ : ∃ q qs, pre = q :: qs := by
      cases pre
      · exact absurd rfl hpre
      · exact ⟨_, _, rfl⟩
    have hlen1 : 1 ≤ pre.length := by rw [hq]; simp
    have hidx : pre.length - 1 + 1 = pre.length := by omega
    show (match unpack64 (pyslice (packList (pre ++ w :: ws) ++ rest)
        ((pre.length - 1 + 1) * 8) ((pre.length - 1 + 2) * 8)) with
      | none => none
      | some v =>
        match readOffsetsAux (packList (pre ++ w :: ws) ++ rest) (pre.length - 1 + 1) ws.length with
        | none => none
        | some rest' => some (v :: rest')) = some (w :: ws)
    have hslice : pyslice (packList (pre ++ w :: ws) ++ rest)
        ((pre.length - 1 + 1) * 8) ((pre.length - 1 + 2) * 8) = pack64 w := by
      have h1 : (pre.length - 1 + 1) * 8 = 8 * pre.length := by omega
      have h2 : (pre.length - 1 + 2) * 8 = 8 * (pre.length + 1) := by omega
      rw [h1, h2, pyslice_packList (pre ++ w :: ws) rest pre.length
          (by simp only [List.length_append, List.length_cons]; omega),
        getD_append_at]
    rw [hslice, unpack64_pack64 w (hws w (List.mem_cons_self w ws))]
    have hrec : readOffsetsAux (packList (pre ++ w :: ws) ++ rest)
        (pre.length - 1 + 1) ws.length = some ws := by
      have hassoc : pre ++ w :: ws = (pre ++ [w]) ++ ws := by simp
      have hlen2 : pre.length - 1 + 1 = (pre ++ [w]).length - 1 := by simp; omega
      rw [hassoc, hlen2]
      exact ih (pre ++ [w]) rest (by simp) (fun x hx => hws x (List.mem_cons_of_mem w hx))
    rw [hrec]

/-- Decomposition of a created file in front of the key blob. -/
theorem createdFile_decomp_keys (pairs : List (List Nat × List Nat)) :
    createdFile pairs
      = (pack64 pairs.length ++ packList (prefixFrom 0 (kLens pairs)))
        ++ (flatCat (pairs.map keyBytes)
          ++ (packList (prefixFrom 0 (cLens pairs)) ++ flatCat (pairs.map chunkOf))) := by
  simp [createdFile, List.append_assoc]

/-- Decomposition of a created file in front of the value-offset table. -/
theorem createdFile_decomp_voffs (pairs : List (List Nat × List Nat)) :
    createdFile pairs
      = ((pack64 pairs.length ++ packList (prefixFrom 0 (kLens pairs)))
          ++ flatCat (pairs.map keyBytes))
        ++ (packList (prefixFrom 0 (cLens pairs)) ++ flatCat (pairs.map chunkOf)) := by
  simp [createdFile, List.append_assoc]

/-- Decomposition of a created file in front of the value blob. -/
theorem createdFile_decomp_vblob (pairs : List (List Nat × List Nat)) :
    createdFile pairs
      = (((pack64 pairs.length ++ packList (prefixFrom 0 (kLens pairs)))
          ++ flatCat (pairs.map keyBytes))
          ++ packList (prefixFrom 0 (cLens pairs)))
        ++ (flatCat (pairs.map chunkOf) ++ []) := by
  simp [createdFile, List.append_assoc]

theorem createdFile_header (pairs : List (List Nat × List Nat))
    (hn : pairs.length < 2 ^ 64) :
    unpack64 (pyslice (createdFile pairs) 0 8) = some pairs.length := by
  have h : pyslice (createdFile pairs) 0 (pack64 pairs.length).length = pack64 pairs.length := by
    rw [createdFile]
    exact pyslice_append_head _ _
  rw [pack64_length] at h
  rw [h, unpack64_pack64 _ hn]

theorem createdFile_keysOffsets (pairs : List (List Nat × List Nat))
    (hkey : (kLens pairs).sum < 2 ^ 64) :
    readOffsetsAux (createdFile pairs) 0 (pairs.length + 1)
      = some (prefixFrom 0 (kLens pairs)) := by
  have hcount : pairs.length + 1 = (prefixFrom 0 (kLens pairs)).length := by simp
  have hfile : createdFile pairs
      = packList ([pairs.length] ++ prefixFrom 0 (kLens pairs))
        ++ (flatCat (pairs.map keyBytes)
          ++ (packList (prefixFrom 0 (cLens pairs)) ++ flatCat (pairs.map chunkOf))) := by
    simp [createdFile, packList]
  have hmem : ∀ w ∈ prefixFrom 0 (kLens pairs), w < 2 ^ 64 := by
    intro w hw
    have := prefixFrom_mem_le 0 (kLens pairs) w hw
    omega
  have := readOffsetsAux_packed (prefixFrom 0 (kLens pairs)) [pairs.length]
    (flatCat (pairs.map keyBytes)
      ++ (packList (prefixFrom 0 (cLens pairs)) ++ flatCat (pairs.map chunkOf)))
    (by simp) hmem
  simp only [List.length_singleton, Nat.sub_self] at this
  rw [← hcount, ← hfile] at this
  exact this

theorem createdFile_keySlice (pairs : List (List Nat × List Nat)) (i : Nat)
    (hi : i < pairs.length) :
    pyslice (createdFile pairs)
        (8 * (pairs.length + 2) + sumTake (kLens pairs) i)
        (8 * (pairs.length + 2) + sumTake (kLens pairs) (i + 1))
      = (pairs.map keyBytes).getD i [] := by
  have hP : (pack64 pairs.length ++ packList (prefixFrom 0 (kLens pairs))).length
      = 8 * (pairs.length + 2) := by
    simp
    ring
  rw [createdFile_decomp_keys, ← hP, pyslice_append_inner, ← map_length_keyBytes,
    pyslice_flatCat]
  simpa using hi

theorem createdFile_valueOffset (pairs : List (List Nat × List Nat)) (i : Nat)
    (hi : i ≤ pairs.length) (hval : (cLens pairs).sum < 2 ^ 64) :
    unpack64 (pyslice (createdFile pairs) (dkosOf pairs + i * 8) (dkosOf pairs + (i + 1) * 8))
      = some (sumTake (cLens pairs) i) := by
  have e1 : dkosOf pairs + i * 8 = dkosOf pairs + 8 * i := by ring
  have e2 : dkosOf pairs + (i + 1) * 8 = dkosOf pairs + 8 * (i + 1) := by ring
  have hP : ((pack64 pairs.length ++ packList (prefixFrom 0 (kLens pairs)))
      ++ flatCat (pairs.map keyBytes)).length = dkosOf pairs := by
    simp [dkosOf, kLens, List.map_map, Function.comp_def]
    ring
  rw [e1, e2, createdFile_decomp_voffs, ← hP, pyslice_append_inner,
    pyslice_packList _ _ i (by simp; omega), prefixFrom_getD 0 _ i (by simp; omega)]
  have hb : sumTake (cLens pairs) i ≤ (cLens pairs).sum := sumTake_le_sum _ _
  rw [Nat.zero_add, unpack64_pack64 _ (by omega)]

/-- The `plain_index` that opening a created file yields, written as a
structural recursion over the input entries: entry `i` maps its key to the
absolute byte range of its compressed payload, `base` being the running
absolute offset inside the file. -/
def entriesOf : List (List Nat × List Nat) → Nat → List (List Nat × Nat × Nat)
  | [], _ => []
  | p :: rest, base =>
    (p.1, base, base + (chunkOf p).length)
      :: entriesOf rest (base + (chunkOf p).length)

theorem initLoop_createdFile (pairs : List (List Nat × List Nat))
    (hvk : ∀ p ∈ pairs, ValidStr p.1)
    (hval : (cLens pairs).sum < 2 ^ 64) :
    ∀ (suffix : List (List Nat × List Nat)) (i0 : Nat),
      suffix = pairs.drop i0 → i0 + suffix.length = pairs.length →
      initLoop (createdFile pairs) (8 * (pairs.length + 2)) (dkosOf pairs) (dsoOf pairs)
          (prefixFrom 0 (kLens pairs)) i0 suffix.length
        = .ok (entriesOf suffix (dsoOf pairs + sumTake (cLens pairs) i0)) := by
  intro suffix
  induction suffix with
  | nil => intro i0 _ _; rfl
  | cons p rest ih =>
    intro i0 hdrop hlen
    simp only [List.length_cons] at hlen
    have hi0 : i0 < pairs.length := by omega
    have hmem : p ∈ pairs := by
      refine List.drop_subset i0 pairs ?_
      rw [← hdrop]
      exact List.mem_cons_self p rest
    have hdrop' : pairs.drop (i0 + 1) = rest := by
      have h1 : (pairs.drop i0).drop 1 = pairs.drop (i0 + 1) := List.drop_drop 1 i0 pairs
      rw [← h1, ← hdrop, List.drop_one]
      rfl
    have hko1 : (prefixFrom 0 (kLens pairs)).getD i0 0 = sumTake (kLens pairs) i0 := by
      rw [prefixFrom_getD 0 _ i0 (by simp; omega), Nat.zero_add]
    have hko2 : (prefixFrom 0 (kLens pairs)).getD (i0 + 1) 0
        = sumTake (kLens pairs) (i0 + 1) := by
      rw [prefixFrom_getD 0 _ (i0 + 1) (by simp; omega), Nat.zero_add]
    have hkgetD : (pairs.map keyBytes).getD i0 [] = keyBytes p := by
      rw [getD_eq_headD_drop, ← List.map_drop, ← hdrop]
      rfl
    have hcgetD : (cLens pairs).getD i0 0 = (chunkOf p).length := by
      show (pairs.map fun q => (chunkOf q).length).getD i0 0 = (chunkOf p).length
      rw [getD_eq_headD_drop, ← List.map_drop, ← hdrop]
      rfl
    have hkey : utf8Decode (pyslice (createdFile pairs)
        (8 * (pairs.length + 2) + (prefixFrom 0 (kLens pairs)).getD i0 0)
        (8 * (pairs.length + 2) + (prefixFrom 0 (kLens pairs)).getD (i0 + 1) 0))
        = some p.1 := by
      rw [hko1, hko2, createdFile_keySlice pairs i0 hi0, hkgetD, keyBytes,
        utf8Decode_utf8Encode p.1 (hvk p hmem)]
    have hstart : unpack64 (pyslice (createdFile pairs)
        (dkosOf pairs + i0 * 8) (dkosOf pairs + (i0 + 1) * 8))
        = some (sumTake (cLens pairs) i0) :=
      createdFile_valueOffset pairs i0 (by omega) hval
    have hend : unpack64 (pyslice (createdFile pairs)
        (dkosOf pairs + (i0 + 1) * 8) (dkosOf pairs + (i0 + 2) * 8))
        = some (sumTake (cLens pairs) (i0 + 1)) := by
      have := createdFile_valueOffset pairs (i0 + 1) (by omega) hval
      have e : i0 + 1 + 1 = i0 + 2 := rfl
      rw [e] at this
      exact this
    have hrec := ih (i0 + 1) hdrop'.symm (by omega)
    have hsum : sumTake (cLens pairs) (i0 + 1)
        = sumTake (cLens pairs) i0 + (chunkOf p).length := by
      rw [sumTake_succ _ i0 (by simp; omega), hcgetD]
    simp only [initLoop, hkey, hstart, hend, hrec, entriesOf, hsum]
    simp [Nat.add_assoc]

theorem createdFile_valueSlice (pairs : List (List Nat × List Nat)) (i : Nat)
    (hi : i < pairs.length) :
    pyslice (createdFile pairs)
        (dsoOf pairs + sumTake (cLens pairs) i)
        (dsoOf pairs + sumTake (cLens pairs) (i + 1))
      = (pairs.map chunkOf).getD i [] := by
  have hP : ((((pack64 pairs.length ++ packList (prefixFrom 0 (kLens pairs)))
      ++ flatCat (pairs.map keyBytes))
      ++ packList (prefixFrom 0 (cLens pairs)))).length = dsoOf pairs := by
    simp [dsoOf, dkosOf, kLens, List.map_map, Function.comp_def]
    ring
  rw [createdFile_decomp_vblob, ← hP, pyslice_append_inner, ← map_length_chunkOf,
    pyslice_flatCat]
  simpa using hi

theorem initCore_createdFile (pairs : List (List Nat × List Nat))
    (hvk : ∀ p ∈ pairs, ValidStr p.1)
    (hn : pairs.length < 2 ^ 64)
    (hkey : (kLens pairs).sum < 2 ^ 64)
    (hval : (cLens pairs).sum < 2 ^ 64) :
    initCore (createdFile pairs) = .ok (entriesOf pairs (dsoOf pairs)) := by
  unfold initCore
  simp only [createdFile_header pairs hn, createdFile_keysOffsets pairs hkey]
  have e1 : 8 * (pairs.length + 2) + (prefixFrom 0 (kLens pairs)).getLastD 0
      = dkosOf pairs := by
    rw [prefixFrom_getLastD, Nat.zero_add, dkosOf]
  have e2 : dkosOf pairs + (pairs.length + 1) * 8 = dsoOf pairs := by
    rw [dsoOf]
    ring
  rw [e1, e2]
  have hmain := initLoop_createdFile pairs hvk hval pairs 0 (by simp) (by simp)
  rw [sumTake_zero, Nat.add_zero] at hmain
  exact hmain

theorem init_createdFile (pairs : List (List Nat × List Nat))
    (hvk : ∀ p ∈ pairs, ValidStr p.1)
    (hn : pairs.length < 2 ^ 64)
    (hkey : (kLens pairs).sum < 2 ^ 64)
    (hval : (cLens pairs).sum < 2 ^ 64) :
    init (createdFile pairs) true defaultDecoder
      = .ok ⟨entriesOf pairs (dsoOf pairs), createdFile pairs, true, defaultDecoder⟩ := by
  unfold init
  rw [initCore_createdFile pairs hvk hn hkey hval]
  rfl

theorem dictGet_cons (x : List Nat × Nat × Nat) (l : List (List Nat × Nat × Nat)) (k : PyKey) :
    dictGet (x :: l) k
      = match dictGet l k with
        | some r => some r
        | none => if keyMatches k x.1 then some x.2 else none := by
  unfold dictGet
  rw [lastHit]
  cases lastHit (fun ent => if keyMatches k ent.1 then some ent.2 else none) l <;> rfl

theorem lastVal_cons (p : List Nat × List Nat) (pairs : List (List Nat × List Nat))
    (k : List Nat) :
    lastVal (p :: pairs) k
      = match lastVal pairs k with
        | some w => some w
        | none => if p.1 = k then some p.2 else none := by
  unfold lastVal
  rw [lastHit]
  cases lastHit (fun p => if p.1 = k then some p.2 else none) pairs <;> rfl

/-- The correspondence between a lookup in `entriesOf` and the last input
entry with the searched key: either both miss, or the hit's byte range
slices the file to exactly that entry's compressed payload. -/
theorem entriesOf_dictGet (k : List Nat) :
    ∀ (ps : List (List Nat × List Nat)) (PRE POST : List Nat),
      (dictGet (entriesOf ps PRE.length) (.str k) = none ∧ lastVal ps k = none)
      ∨ (∃ v s e, lastVal ps k = some v
          ∧ dictGet (entriesOf ps PRE.length) (.str k) = some (s, e)
          ∧ pyslice (PRE ++ (flatCat (ps.map chunkOf) ++ POST)) s e
            = compress (utf8Encode v)) := by
  intro ps
  induction ps with
  | nil => intro PRE POST; left; exact ⟨rfl, rfl⟩
  | cons p rest ih =>
    intro PRE POST
    have hF : PRE ++ (flatCat ((p :: rest).map chunkOf) ++ POST)
        = (PRE ++ chunkOf p) ++ (flatCat (rest.map chunkOf) ++ POST) := by
      simp [flatCat, List.append_assoc]
    have hent : entriesOf (p :: rest) PRE.length
        = (p.1, PRE.length, PRE.length + (chunkOf p).length)
          :: entriesOf rest (PRE.length + (chunkOf p).length) := rfl
    have hlen : (PRE ++ chunkOf p).length = PRE.length + (chunkOf p).length := by simp
    rcases ih (PRE ++ chunkOf p) POST with ⟨hd, hl⟩ | ⟨v, s, e, hlv, hdg, hsl⟩
    · rw [hlen] at hd
      by_cases hk : p.1 = k
      · right
        refine ⟨p.2, PRE.length, PRE.length + (chunkOf p).length, ?_, ?_, ?_⟩
        · rw [lastVal_cons, hl, if_pos hk]
        · rw [hent, dictGet_cons, hd, keyMatches, if_pos (by simp [hk])]
        · rw [hF, List.append_assoc]
          have h0 := pyslice_append_inner PRE (chunkOf p ++ (flatCat (rest.map chunkOf) ++ POST))
            0 (chunkOf p).length
          rw [Nat.add_zero] at h0
          rw [h0]
          have h1 := pyslice_append_head (chunkOf p) (flatCat (rest.map chunkOf) ++ POST)
          rw [h1, chunkOf]
      · left
        constructor
        · rw [hent, dictGet_cons, hd, keyMatches,
            if_neg (by simp only [decide_eq_true_eq]; intro hcontra; exact hk hcontra.symm)]
        · rw [lastVal_cons, hl, if_neg hk]
    · right
      rw [hlen] at hdg
      refine ⟨v, s, e, ?_, ?_, ?_⟩
      · rw [lastVal_cons, hlv]
      · rw [hent, dictGet_cons, hdg]
      · rw [hF]
        exact hsl

theorem lastVal_mem (pairs : List (List Nat × List Nat)) (k v : List Nat)
    (h : lastVal pairs k = some v) : ∃ q ∈ pairs, q.2 = v := by
  induction pairs with
  | nil => exact absurd h (by simp [lastVal, lastHit])
  | cons p rest ih =>
    rw [lastVal_cons] at h
    rcases hrest : lastVal rest k with _ | w
    · rw [hrest] at h
      by_cases hk : p.1 = k
      · rw [if_pos hk] at h
        exact ⟨p, List.mem_cons_self p rest, by injection h⟩
      · rw [if_neg hk] at h
        simp at h
    · rw [hrest] at h
      have hw : w = v := by injection h
      subst hw
      obtain ⟨q, hq1, hq2⟩ := ih hrest
      exact ⟨q, List.mem_cons_of_mem p hq1, hq2⟩

/-- Master round-trip theorem: building with the default codec and
querying a string key returns the value of the last input entry carrying
that key, or the supplied default when no entry does. -/
theorem roundTrip_eq_lastVal (pairs : List (List Nat × List Nat)) (k d : List Nat)
    (hvk : ∀ p ∈ pairs, ValidStr p.1)
    (hvv : ∀ p ∈ pairs, ValidStr p.2)
    (hn : pairs.length < 2 ^ 64)
    (hkey : (kLens pairs).sum < 2 ^ 64)
    (hval : (cLens pairs).sum < 2 ^ 64) :
    roundTrip pairs (.str k) d = some (.ok ((lastVal pairs k).getD d)) := by
  simp only [roundTrip, create_default_eq pairs, init_createdFile pairs hvk hn hkey hval]
  have hP3 : (((pack64 pairs.length ++ packList (prefixFrom 0 (kLens pairs)))
      ++ flatCat (pairs.map keyBytes))
      ++ packList (prefixFrom 0 (cLens pairs))).length = dsoOf pairs := by
    simp [dsoOf, dkosOf, kLens, List.map_map, Function.comp_def]
    ring
  have hfile := createdFile_decomp_vblob pairs
  rcases entriesOf_dictGet k pairs
      (((pack64 pairs.length ++ packList (prefixFrom 0 (kLens pairs)))
        ++ flatCat (pairs.map keyBytes))
        ++ packList (prefixFrom 0 (cLens pairs))) [] with ⟨hd, hl⟩ | ⟨v, s, e, hlv, hdg, hsl⟩
  · rw [hP3] at hd
    rw [hl]
    simp only [get, hd, Option.getD_none]
  · rw [hP3] at hdg
    rw [← hfile] at hsl
    have hvmem : ValidStr v := by
      obtain ⟨q, hq1, hq2⟩ := lastVal_mem pairs k v hlv
      rw [← hq2]
      exact hvv q hq1
    rw [hlv]
    simp only [get, hdg, hsl, decompress_compress, defaultDecoder,
      utf8Decode_utf8Encode v hvmem, Option.getD_some]

theorem dictGet_nonStr (t : Nat) (l : List (List Nat × Nat × Nat)) :
    dictGet l (.nonStr t) = none := by
  induction l with
  | nil => rfl
  | cons x l ih =>
    rw [dictGet_cons, ih]
    rfl

/-- C10: on every opened store, `get` with a non-string (hashable) key
returns the default without raising, because `plain_index` holds only
string keys and a non-string never equals a string under standard Python
equality. -/
theorem C10_nonstring_key_returns_default {V : Type} (st : Store V) (t : Nat) (d : V) :
    get st (.nonStr t) d = .ok d := by
  simp only [get, dictGet_nonStr]

/-- The 24-byte file `create` produces from an empty input: a zero record
count and one zero sentinel in each offset table. -/
def emptyIndexFile : List Nat := pack64 0 ++ pack64 0 ++ pack64 0

/-- C9: `create` on an empty input yields a 24-byte file (record count 0
and a zero sentinel in each offset table); opening it yields an empty
`plain_index`, and `get` returns the default for every key. -/
theorem C9_empty_input :
    create defKeyFn defEncFn ([] : List (List Nat × List Nat)) = .ok emptyIndexFile
    ∧ emptyIndexFile.length = 24
    ∧ storePlainIndex (init emptyIndexFile true defaultDecoder) = some []
    ∧ ∀ (k : PyKey) (d : List Nat), roundTrip [] k d = some (.ok d) := by
  refine ⟨rfl, rfl, rfl, ?_⟩
  intro k d
  show some (get ⟨[], emptyIndexFile, true, defaultDecoder⟩ k d) = some (.ok d)
  simp only [get]
  have h : dictGet [] k = none := rfl
  rw [h]

theorem initCore_ok_length (f : List Nat) (pix : List (List Nat × Nat × Nat))
    (h : initCore f = .ok pix) : 8 ≤ f.length := by
  by_contra hlen
  have hsl : unpack64 (pyslice f 0 8) = none := by
    rw [unpack64, if_neg]
    rw [pyslice_length]
    omega
  rw [initCore, hsl] at h
  exact absurd h (by simp)

/-- C8: the access mode (`in_memory=True` full buffer vs `in_memory=False`
memory map) never changes lookup semantics: if the in-memory open of a
file succeeds, the mapped open succeeds with the same parsed index over
the same bytes, and `get` answers identically. -/
theorem C8_access_mode_equivalence {V : Type} (f : List Nat)
    (dec : List Nat → DecRes V) (st1 : Store V) (k : PyKey) (d : V)
    (h : init f true dec = .ok st1) :
    init f false dec = .ok ⟨st1.plain_index, st1.idx, false, st1.decoder⟩
    ∧ get ⟨st1.plain_index, st1.idx, false, st1.decoder⟩ k d = get st1 k d := by
  rw [init] at h
  simp only [Bool.not_true, Bool.false_and, Bool.false_eq_true, if_false] at h
  cases hcore : initCore f with
  | error err => rw [hcore] at h; exact absurd h (by simp)
  | ok pix =>
    rw [hcore] at h
    have hst : st1 = ⟨pix, f, true, dec⟩ := by
      have := h
      simp only [Except.ok.injEq] at this
      exact this.symm
    subst hst
    have hne : 8 ≤ f.length := initCore_ok_length f pix hcore
    constructor
    · rw [init]
      have hcond : (!false && f.length == 0) = false := by
        simp only [Bool.not_false, Bool.true_and]
        simp only [beq_eq_false_iff_ne, ne_eq]
        omega
      rw [hcond]
      simp only [Bool.false_eq_true, if_false, hcore]
    · rfl

/-- C5: the file `create` builds from `n` entries is exactly the five
regions in order — an 8-byte record count, a `(n+1)`-entry prefix-sum
key-offset table starting at 0 and closed by the total key bytes, the
concatenated raw key bytes, the analogous value-offset table of compressed
payload lengths, and the concatenated compressed payloads — so its length
is `8 + (n+1)*8 + total_key_bytes + (n+1)*8 + total_compressed_bytes`. -/
theorem C5_file_layout (pairs : List (List Nat × List Nat)) :
    create defKeyFn defEncFn pairs
      = .ok (pack64 pairs.length
          ++ (packList (prefixFrom 0 (kLens pairs))
            ++ (flatCat (pairs.map keyBytes)
              ++ (packList (prefixFrom 0 (cLens pairs)) ++ flatCat (pairs.map chunkOf)))))
    ∧ (createdFile pairs).length
        = 8 + (pairs.length + 1) * 8 + (kLens pairs).sum
          + (pairs.length + 1) * 8 + (cLens pairs).sum
    ∧ (prefixFrom 0 (kLens pairs)).getD 0 0 = 0
    ∧ (prefixFrom 0 (kLens pairs)).getLastD 0 = (kLens pairs).sum
    ∧ (prefixFrom 0 (cLens pairs)).getD 0 0 = 0
    ∧ (prefixFrom 0 (cLens pairs)).getLastD 0 = (cLens pairs).sum
    ∧ (∀ i, i ≤ pairs.length →
        (prefixFrom 0 (kLens pairs)).getD i 0 = sumTake (kLens pairs) i)
    ∧ (∀ i, i ≤ pairs.length →
        (prefixFrom 0 (cLens pairs)).getD i 0 = sumTake (cLens pairs) i) := by
  refine ⟨create_default_eq pairs, ?_, ?_, ?_, ?_, ?_, ?_, ?_⟩
  · simp [createdFile, kLens, cLens, List.map_map, Function.comp_def]
    ring
  · cases hk : kLens pairs <;> simp [prefixFrom]
  · rw [prefixFrom_getLastD, Nat.zero_add]
  · cases hc : cLens pairs <;> simp [prefixFrom]
  · rw [prefixFrom_getLastD, Nat.zero_add]
  · intro i hi
    rw [prefixFrom_getD 0 _ i (by simp [hi]), Nat.zero_add]
  · intro i hi
    rw [prefixFrom_getD 0 _ i (by simp [hi]), Nat.zero_add]

/-- Open a file with the default decoder and query it: `none` when the
open failed, otherwise the outcome of `get`. -/
def getOnFile (f : List Nat) (k : PyKey) (d : List Nat) :
    Option (Except GetErr (List Nat)) :=
  match init f true defaultDecoder with
  | .error _ => none
  | .ok st => some (get st k d)

/-- A 42-byte file declaring one record with key `"k"`, whose stored
payload byte `0` is not a well-formed compressed stream. -/
def corruptPayloadFile : List Nat :=
  pack64 1 ++ pack64 0 ++ pack64 1 ++ [107] ++ pack64 0 ++ pack64 1 ++ [0]

/-- A 43-byte file declaring one record with key `"k"` whose compressed
payload decompresses to the byte `255`, which is not valid UTF-8. -/
def undecodablePayloadFile : List Nat :=
  pack64 1 ++ pack64 0 ++ pack64 1 ++ [107] ++ pack64 0 ++ pack64 2 ++ [120, 255]

/-- C2 counterexample: on a store opened over `corruptPayloadFile`, the
key `"k"` is present in the `plain_index`, its bytes fail to decompress,
and `get` does NOT return the default: it escapes with an uncaught
`zlib.error` (`zlib.error` is not a `ValueError`, so the
`except ValueError` handler does not catch it), refuting the claim that
a decompression failure is swallowed and indistinguishable from a miss. -/
theorem C2_counterexample :
    storePlainIndex (init corruptPayloadFile true defaultDecoder) = some [([107], 41, 42)]
    ∧ getOnFile corruptPayloadFile (.str [107]) [] = some (.error .zlibError) :=
  ⟨rfl, rfl⟩

/-- C2 (amended): on a hit, `get` returns the default only when the
decoder raises a `ValueError` on the decompressed bytes; a decompression
failure escapes as an uncaught `zlib.error` instead of being swallowed;
a successful decode returns the decoded value. -/
theorem C2_decode_failure_amended {V : Type} (st : Store V) (k : PyKey) (d : V)
    (s e : Nat) (h : dictGet st.plain_index k = some (s, e)) :
    (decompress (pyslice st.idx s e) = none → get st k d = .error .zlibError)
    ∧ (∀ bs, decompress (pyslice st.idx s e) = some bs →
        st.decoder bs = .valueError → get st k d = .ok d)
    ∧ (∀ bs v, decompress (pyslice st.idx s e) = some bs →
        st.decoder bs = .ok v → get st k d = .ok v) := by
  refine ⟨?_, ?_, ?_⟩
  · intro hdec
    simp only [get, h, hdec]
  · intro bs hdec hdecoder
    simp only [get, h, hdec, hdecoder]
  · intro bs v hdec hdecoder
    simp only [get, h, hdec, hdecoder]

theorem C2_decode_failure_amended_witness :
    get (⟨[([107], 41, 42)], corruptPayloadFile, true, defaultDecoder⟩ : Store (List Nat))
        (.str [107]) [] = .error .zlibError
    ∧ get (⟨[([107], 41, 43)], undecodablePayloadFile, true, defaultDecoder⟩ : Store (List Nat))
        (.str [107]) [55] = .ok [55] := by
  constructor
  · exact (C2_decode_failure_amended
      (⟨[([107], 41, 42)], corruptPayloadFile, true, defaultDecoder⟩ : Store (List Nat))
      (.str [107]) [] 41 42 rfl).1 rfl
  · exact ((C2_decode_failure_amended
      (⟨[([107], 41, 43)], undecodablePayloadFile, true, defaultDecoder⟩ : Store (List Nat))
      (.str [107]) [55] 41 43 rfl).2.1) [255] rfl rfl

/-- Classification of what `create` does with one entry, following the
source's order of operations: a raising `key_function` or a raising
`encoder` or a non-`str` key each abort with `ForkAwareDict.Error`, an
encoder result that is not a byte sequence aborts with the `TypeError`
that `zlib.compress` raises (uncaught), and a fully well-typed entry
continues the loop. -/
def entryErr {E : Type} (keyFn encFn : E → FnRes (List Nat)) (x : E) : Option CreateErr :=
  match keyFn x with
  | .raised => some .dictError
  | kres =>
    match encFn x with
    | .raised => some .dictError
    | eres =>
      match kres with
      | .raised => some .dictError
      | .wrongType => some .dictError
      | .ok _ =>
        match eres with
        | .raised => some .dictError
        | .wrongType => some .typeError
        | .ok _ => none

theorem entryErr_none {E : Type} (keyFn encFn : E → FnRes (List Nat)) (x : E)
    (h : entryErr keyFn encFn x = none) :
    ∃ kk bb, keyFn x = .ok kk ∧ encFn x = .ok bb := by
  cases hk : keyFn x <;> cases he : encFn x <;>
    simp only [entryErr, hk, he] at h <;>
    first
    | exact ⟨_, _, rfl, rfl⟩
    | exact absurd h (by simp)

theorem createLoop_entry_error {E : Type} (keyFn encFn : E → FnRes (List Nat))
    (x : E) (post : List E) (err : CreateErr)
    (hx : entryErr keyFn encFn x = some err) :
    ∀ (pre : List E) (off koff : Nat), (∀ y ∈ pre, entryErr keyFn encFn y = none) →
      createLoop keyFn encFn (pre ++ x :: post) off koff = .error err := by
  intro pre
  induction pre with
  | nil =>
    intro off koff _
    rw [List.nil_append]
    cases hk : keyFn x <;> cases he : encFn x <;>
      simp only [entryErr, hk, he, Option.some.injEq] at hx <;>
      first
      | exact absurd hx (by simp)
      | (simp only [createLoop, hk, he, ← hx]; try rfl)
  | cons y pre ih =>
    intro off koff hpre
    obtain ⟨kk, bb, hky, hey⟩ := entryErr_none keyFn encFn y
      (hpre y (List.mem_cons_self y pre))
    rw [List.cons_append]
    simp only [createLoop, hky, hey]
    rw [ih (off + (compress bb).length) (koff + (utf8Encode kk).length)
      (fun z hz => hpre z (List.mem_cons_of_mem y hz))]

/-- C4 (amended): a raising `key_function`, a raising `encoder`, or a
non-string key aborts `create` at the offending entry with
`ForkAwareDict.Error` and no final file is produced; but an encoder that
returns a non-byte-sequence value aborts with the uncaught `TypeError`
raised by `zlib.compress`, not with `ForkAwareDict.Error`. -/
theorem C4_encoding_error_amended {E : Type} (keyFn encFn : E → FnRes (List Nat))
    (pre : List E) (x : E) (post : List E) (err : CreateErr)
    (hpre : ∀ y ∈ pre, entryErr keyFn encFn y = none)
    (hx : entryErr keyFn encFn x = some err) :
    create keyFn encFn (pre ++ x :: post) = .error err := by
  unfold create
  rw [createLoop_entry_error keyFn encFn x post err hx pre 0 0 hpre]

theorem C4_encoding_error_amended_witness :
    create (fun (_ : Unit) => (FnRes.raised : FnRes (List Nat)))
        (fun _ => FnRes.ok []) [()] = .error .dictError
    ∧ create (fun (_ : Unit) => (FnRes.ok [107] : FnRes (List Nat)))
        (fun _ => FnRes.wrongType) ([()] ++ [()] ++ []) = .error .typeError := by
  constructor
  · exact C4_encoding_error_amended _ _ [] () [] .dictError (by intro y hy; cases hy) rfl
  · exact C4_encoding_error_amended (fun (_ : Unit) => (FnRes.ok [107] : FnRes (List Nat)))
      (fun _ => FnRes.wrongType) [] () [()] .typeError (by intro y hy; cases hy) rfl

/-- C4 counterexample: an encoder returning a non-byte-sequence value
makes `create` fail with the uncaught `TypeError` from `zlib.compress`,
not with an `EncodingError` (`ForkAwareDict.Error`) as claimed — the
source assigns `entry: bytes = encoder(entry)` without any type check. -/
theorem C4_counterexample :
    create (fun (_ : Unit) => (FnRes.ok [107] : FnRes (List Nat)))
        (fun _ => FnRes.wrongType) [()] = .error .typeError
    ∧ CreateErr.typeError ≠ CreateErr.dictError :=
  ⟨rfl, by decide⟩

theorem lastVal_eq_none_of_not_mem (pairs : List (List Nat × List Nat)) (k : List Nat)
    (h : k ∉ pairs.map Prod.fst) : lastVal pairs k = none := by
  induction pairs with
  | nil => rfl
  | cons p rest ih =>
    have hrest : k ∉ rest.map Prod.fst := by
      intro hm
      exact h (by simp [hm])
    have hk : ¬(p.1 = k) := by
      intro he
      exact h (by simp [← he])
    rw [lastVal_cons, ih hrest, if_neg hk]

theorem lastVal_eq_some_of_nodup (pairs : List (List Nat × List Nat)) (k v : List Nat)
    (hnd : (pairs.map Prod.fst).Nodup) (hmem : (k, v) ∈ pairs) :
    lastVal pairs k = some v := by
  induction pairs with
  | nil => simp at hmem
  | cons p rest ih =>
    rw [List.map_cons, List.nodup_cons] at hnd
    rw [lastVal_cons]
    rcases List.mem_cons.mp hmem with hp | hrest
    · have hp1 : p.1 = k := by rw [← hp]
      have hp2 : p.2 = v := by rw [← hp]
      have hnone : lastVal rest k = none := by
        refine lastVal_eq_none_of_not_mem rest k ?_
        rw [← hp1]
        exact hnd.1
      rw [hnone, if_pos hp1, hp2]
    · rw [ih hnd.2 hrest]

/-- C1: building a file from pairs with unique string keys via `create`
(default codec) and opening it via `__init__` (default decoder) yields a
store whose `get` returns each stored value for its key, and the supplied
default for any key not among the input keys. -/
theorem C1_round_trip (pairs : List (List Nat × List Nat))
    (hvk : ∀ p ∈ pairs, ValidStr p.1)
    (hvv : ∀ p ∈ pairs, ValidStr p.2)
    (hn : pairs.length < 2 ^ 64)
    (hkey : (kLens pairs).sum < 2 ^ 64)
    (hval : (cLens pairs).sum < 2 ^ 64)
    (hnd : (pairs.map Prod.fst).Nodup) :
    (∀ k v d, (k, v) ∈ pairs → roundTrip pairs (.str k) d = some (.ok v))
    ∧ (∀ k d, k ∉ pairs.map Prod.fst → roundTrip pairs (.str k) d = some (.ok d)) := by
  constructor
  · intro k v d hmem
    rw [roundTrip_eq_lastVal pairs k d hvk hvv hn hkey hval,
      lastVal_eq_some_of_nodup pairs k v hnd hmem]
    rfl
  · intro k d habs
    rw [roundTrip_eq_lastVal pairs k d hvk hvv hn hkey hval,
      lastVal_eq_none_of_not_mem pairs k habs]
    rfl

theorem C1_round_trip_witness :
    roundTrip [([102, 111, 111], [97, 97, 97]), ([98, 97, 114], [98, 98, 98, 98])]
        (.str [98, 97, 114]) [] = some (.ok [98, 98, 98, 98])
    ∧ roundTrip [([102, 111, 111], [97, 97, 97]), ([98, 97, 114], [98, 98, 98, 98])]
        (.str [109, 105, 115, 115]) [42] = some (.ok [42]) := by
  have h := C1_round_trip
    [([102, 111, 111], [97, 97, 97]), ([98, 97, 114], [98, 98, 98, 98])]
    (by decide) (by decide) (by decide) (by decide) (by decide) (by decide)
  exact ⟨h.1 [98, 97, 114] [98, 98, 98, 98] [] (by decide),
    h.2 [109, 105, 115, 115] [42] (by decide)⟩

/-- C7: with duplicate keys in the input, the opened store resolves `get`
on that key to the value of the LAST such entry in input order; in
general the result of a query is the last-occurrence value, or the
default when the key never occurs. -/
theorem C7_duplicate_key_shadowing (pairs : List (List Nat × List Nat)) (k d : List Nat)
    (hvk : ∀ p ∈ pairs, ValidStr p.1)
    (hvv : ∀ p ∈ pairs, ValidStr p.2)
    (hn : pairs.length < 2 ^ 64)
    (hkey : (kLens pairs).sum < 2 ^ 64)
    (hval : (cLens pairs).sum < 2 ^ 64) :
    roundTrip pairs (.str k) d = some (.ok ((lastVal pairs k).getD d)) :=
  roundTrip_eq_lastVal pairs k d hvk hvv hn hkey hval

theorem C7_duplicate_key_shadowing_witness :
    roundTrip [([107], [97]), ([107], [98])] (.str [107]) [] = some (.ok [98]) := by
  have h := C7_duplicate_key_shadowing [([107], [97]), ([107], [98])] [107] []
    (by decide) (by decide) (by decide) (by decide) (by decide)
  rw [h]
  rfl

theorem C5_file_layout_witness :
    create defKeyFn defEncFn [([107], [97])] = .ok (createdFile [([107], [97])])
    ∧ (createdFile [([107], [97])]).length = 43
    ∧ (prefixFrom 0 (kLens [([107], [97])])).getD 1 0 = sumTake (kLens [([107], [97])]) 1 := by
  have h := C5_file_layout [([107], [97])]
  refine ⟨?_, ?_, h.2.2.2.2.2.2.1 1 (by decide)⟩
  · rw [h.1]
    rfl
  · rw [h.2.1]
    rfl

theorem C8_access_mode_equivalence_witness :
    init emptyIndexFile false defaultDecoder
        = .ok ⟨[], emptyIndexFile, false, defaultDecoder⟩
    ∧ get (⟨[], emptyIndexFile, false, defaultDecoder⟩ : Store (List Nat)) (.str [107]) []
        = get (⟨[], emptyIndexFile, true, defaultDecoder⟩ : Store (List Nat)) (.str [107]) [] :=
  C8_access_mode_equivalence emptyIndexFile defaultDecoder
    ⟨[], emptyIndexFile, true, defaultDecoder⟩ (.str [107]) [] rfl

theorem unpack64_some (l : List Nat) (v : Nat) (h : unpack64 l = some v) :
    l.length = 8 ∧ v = leVal l := by
  rw [unpack64] at h
  split_ifs at h with hlen
  exact ⟨hlen, by injection h with h2; exact h2.symm⟩

theorem getD_default_irrel {α : Type} (l : List α) (i : Nat) (d1 d2 : α)
    (h : i < l.length) : l.getD i d1 = l.getD i d2 := by
  rw [getD_eq_headD_drop, getD_eq_headD_drop]
  cases hd : l.drop i with
  | nil =>
    have := congrArg List.length hd
    simp at this
    omega
  | cons x t => rfl

theorem getLastD_eq_getD {α : Type} (l : List α) (d : α) (h : l ≠ []) :
    l.getLastD d = l.getD (l.length - 1) d := by
  induction l generalizing d with
  | nil => exact absurd rfl h
  | cons x l ih =>
    cases l with
    | nil => rfl
    | cons y l2 =>
      rw [List.getLastD_cons, ih x (by simp)]
      have h1 : (x :: y :: l2).getD ((x :: y :: l2).length - 1) d
          = (y :: l2).getD ((y :: l2).length - 1) d := by
        simp only [List.length_cons]
        rw [show l2.length + 1 + 1 - 1 = (l2.length + 1 - 1) + 1 from by omega]
        rfl
      rw [h1]
      exact getD_default_irrel _ _ _ _ (by simp)

/-- The declared record count of a file: the 64-bit header value.
(Follows the claim's description of the open algorithm.) -/
def headerVal (f : List Nat) : Nat := leVal (pyslice f 0 8)

/-- Entry `KeyOffsets[i]` of a file, read where `__init__` reads it.
(Follows the claim's description of the open algorithm.) -/
def specKO (f : List Nat) (i : Nat) : Nat :=
  leVal (pyslice f ((i + 1) * 8) ((i + 2) * 8))

/-- The ValueOffsets region start per the (amended) claim: the key-blob
start `8 * (record_count + 2)` plus the last `KeyOffsets` entry. -/
def specDkos (f : List Nat) : Nat := 8 * (headerVal f + 2) + specKO f (headerVal f)

/-- The ValueBlob region start per the claim: the ValueOffsets start plus
`(record_count + 1) * 8`. -/
def specDso (f : List Nat) : Nat := specDkos f + (headerVal f + 1) * 8

/-- Entry `ValueOffsets[i]` of a file, read where `__init__` reads it. -/
def specVO (f : List Nat) (i : Nat) : Nat :=
  leVal (pyslice f (specDkos f + i * 8) (specDkos f + (i + 1) * 8))

/-- The `i`-th key of a file: the UTF-8 decode of the KeyBlob slice
`KeyOffsets[i]..KeyOffsets[i+1]`, the KeyBlob starting at
`8 * (record_count + 2)` (the amended start; the claim's
`8 + (record_count + 2) * 8` is off by eight bytes). -/
def specKeyAt (f : List Nat) (i : Nat) : List Nat :=
  (utf8Decode (pyslice f (8 * (headerVal f + 2) + specKO f i)
    (8 * (headerVal f + 2) + specKO f (i + 1)))).getD []

/-- The `plain_index` the claim's open-algorithm description predicts
(with the amended KeyBlob start): entry `i` maps the `i`-th key to the
absolute range `(specDso + ValueOffsets[i], specDso + ValueOffsets[i+1])`,
in record order. -/
def specIdxFrom (f : List Nat) : Nat → Nat → List (List Nat × Nat × Nat)
  | _, 0 => []
  | i, count + 1 =>
    (specKeyAt f i, specDso f + specVO f i, specDso f + specVO f (i + 1))
      :: specIdxFrom f (i + 1) count

theorem readOffsetsAux_char (f : List Nat) :
    ∀ (cnt i0 : Nat) (l : List Nat), readOffsetsAux f i0 cnt = some l →
      l.length = cnt
      ∧ ∀ j, j < cnt →
          l.getD j 0 = leVal (pyslice f ((i0 + j + 1) * 8) ((i0 + j + 2) * 8)) := by
  intro cnt
  induction cnt with
  | zero =>
    intro i0 l h
    simp only [readOffsetsAux, Option.some.injEq] at h
    subst h
    exact ⟨rfl, fun j hj => absurd hj (by omega)⟩
  | succ cnt ih =>
    intro i0 l h
    simp only [readOffsetsAux] at h
    cases hu : unpack64 (pyslice f ((i0 + 1) * 8) ((i0 + 2) * 8)) with
    | none => simp only [hu] at h; exact Option.noConfusion h
    | some v =>
      simp only [hu] at h
      cases hr : readOffsetsAux f (i0 + 1) cnt with
      | none => simp only [hr] at h; exact Option.noConfusion h
      | some rest =>
        simp only [hr, Option.some.injEq] at h
        subst h
        obtain ⟨hlen, hval⟩ := ih (i0 + 1) rest hr
        obtain ⟨_, hv⟩ := unpack64_some _ _ hu
        refine ⟨by simp [hlen], ?_⟩
        intro j hj
        cases j with
        | zero =>
          simp only [List.getD_cons_zero, hv]
        | succ j2 =>
          simp only [List.getD_cons_succ]
          rw [hval j2 (by omega)]
          rw [show i0 + 1 + j2 + 1 = i0 + (j2 + 1) + 1 from by omega,
            show i0 + 1 + j2 + 2 = i0 + (j2 + 1) + 2 from by omega]

theorem initLoop_char (f : List Nat) (ko : List Nat) (n : Nat)
    (hn : n = headerVal f)
    (hko : ∀ j, j ≤ n → ko.getD j 0 = specKO f j) :
    ∀ (cnt i0 : Nat) (es : List (List Nat × Nat × Nat)), i0 + cnt ≤ n →
      initLoop f (8 * (n + 2)) (specDkos f) (specDso f) ko i0 cnt = .ok es →
      es = specIdxFrom f i0 cnt := by
  intro cnt
  induction cnt with
  | zero =>
    intro i0 es _ h
    simp only [initLoop, Except.ok.injEq] at h
    rw [← h]
    rfl
  | succ cnt ih =>
    intro i0 es hle h
    simp only [initLoop] at h
    cases hkd : utf8Decode (pyslice f (8 * (n + 2) + ko.getD i0 0)
        (8 * (n + 2) + ko.getD (i0 + 1) 0)) with
    | none => simp only [hkd] at h; exact Except.noConfusion h
    | some key =>
      simp only [hkd] at h
      cases hs : unpack64 (pyslice f (specDkos f + i0 * 8) (specDkos f + (i0 + 1) * 8)) with
      | none => simp only [hs] at h; exact Except.noConfusion h
      | some sv =>
        simp only [hs] at h
        cases he2 : unpack64 (pyslice f (specDkos f + (i0 + 1) * 8)
            (specDkos f + (i0 + 2) * 8)) with
        | none => simp only [he2] at h; exact Except.noConfusion h
        | some ev =>
          simp only [he2] at h
          cases hrec : initLoop f (8 * (n + 2)) (specDkos f) (specDso f) ko (i0 + 1) cnt with
          | error err => simp only [hrec] at h; exact Except.noConfusion h
          | ok rest =>
            simp only [hrec, Except.ok.injEq] at h
            have hrest := ih (i0 + 1) rest (by omega) hrec
            have hkey : key = specKeyAt f i0 := by
              rw [hko i0 (by omega), hko (i0 + 1) (by omega)] at hkd
              rw [specKeyAt, ← hn, hkd]
              rfl
            have hsv : sv = specVO f i0 := by
              obtain ⟨_, hv⟩ := unpack64_some _ _ hs
              rw [hv, specVO]
            have hev : ev = specVO f (i0 + 1) := by
              obtain ⟨_, hv⟩ := unpack64_some _ _ he2
              rw [hv, specVO, show i0 + 1 + 1 = i0 + 2 from rfl]
            rw [← h, hrest, hkey, hsv, hev]
            rfl

/-- C6 (amended): whenever `__init__` succeeds on a file declaring
`record_count` records, its `plain_index` is exactly the claim's
open-algorithm prediction — the `i`-th key is the KeyBlob slice at
`KeyOffsets[i]..KeyOffsets[i+1]` and maps to
`(values_region_start + ValueOffsets[i], values_region_start +
ValueOffsets[i+1])` — with the KeyBlob region starting at
`8 * (record_count + 2)` bytes (the code's value; the claim's
`8 + (record_count + 2) * 8` is eight bytes too far). -/
theorem C6_open_arithmetic_amended {V : Type} (f : List Nat) (m : Bool)
    (dec : List Nat → DecRes V) (st : Store V)
    (h : init f m dec = .ok st) :
    st.plain_index = specIdxFrom f 0 (headerVal f) := by
  rw [init] at h
  by_cases hc : (!m && f.length == 0) = true
  · rw [if_pos hc] at h
    exact absurd h (by simp)
  · rw [if_neg hc] at h
    cases hcore : initCore f with
    | error err => rw [hcore] at h; exact absurd h (by simp)
    | ok pix =>
      rw [hcore] at h
      simp only [Except.ok.injEq] at h
      have hpix : st.plain_index = pix := by rw [← h]
      rw [hpix]
      simp only [initCore] at hcore
      cases hh : unpack64 (pyslice f 0 8) with
      | none => simp only [hh] at hcore; exact Except.noConfusion hcore
      | some num =>
        simp only [hh] at hcore
        obtain ⟨hl8, hnum⟩ := unpack64_some _ _ hh
        have hhv : headerVal f = num := hnum.symm
        cases hro : readOffsetsAux f 0 (num + 1) with
        | none => simp only [hro] at hcore; exact Except.noConfusion hcore
        | some ko =>
          simp only [hro] at hcore
          obtain ⟨hkolen, hkoval⟩ := readOffsetsAux_char f (num + 1) 0 ko hro
          have hko : ∀ j, j ≤ num → ko.getD j 0 = specKO f j := by
            intro j hj
            rw [hkoval j (by omega), specKO]
            congr 2 <;> omega
          have hlast : ko.getLastD 0 = specKO f num := by
            rw [getLastD_eq_getD ko 0 (by intro hnil; rw [hnil] at hkolen; simp at hkolen),
              hkolen]
            have : num + 1 - 1 = num := by omega
            rw [this]
            exact hko num (by omega)
          have hdkos : 8 * (num + 2) + ko.getLastD 0 = specDkos f := by
            rw [hlast, specDkos, hhv]
          rw [hdkos] at hcore
          have hdso : specDkos f + (num + 1) * 8 = specDso f := by
            rw [specDso, hhv]
          rw [hdso] at hcore
          have := initLoop_char f ko num hhv.symm hko num 0 pix (by omega) hcore
          rw [this, hhv]

/-- A 43-byte valid one-record file with key `"k"` and value `"a"`
(exactly what `create` builds from `[("k", "a")]`). -/
def oneRecordFile : List Nat :=
  pack64 1 ++ pack64 0 ++ pack64 1 ++ [107] ++ pack64 0 ++ pack64 2
    ++ compress (utf8Encode [97])

/-- Open a file with the default decoder and look a key up in the parsed
`plain_index` only: `none` when the open failed. -/
def indexGetOnFile (f : List Nat) (k : PyKey) : Option (Option (Nat × Nat)) :=
  match init f true defaultDecoder with
  | .error _ => none
  | .ok st => some (dictGet st.plain_index k)

/-- C6 counterexample: on a valid one-record file, the key predicted by
the claim's formula `keys_region_start = 8 + (record_count + 2) * 8`
(which slices byte 32, the zero byte of the value-offset table, decoding
to the one-character string U+0000) is absent from the constructed
`plain_index`, while the actual key `"k"` (sliced at the code's
`8 * (record_count + 2) = 24`) is present: the claimed region start is
eight bytes past the code's. -/
theorem C6_counterexample :
    pyslice oneRecordFile (8 + (1 + 2) * 8) (8 + (1 + 2) * 8 + 1) = [0]
    ∧ utf8Decode [0] = some [0]
    ∧ indexGetOnFile oneRecordFile (.str [0]) = some none
    ∧ indexGetOnFile oneRecordFile (.str [107]) = some (some (41, 43)) :=
  ⟨rfl, rfl, rfl, rfl⟩

theorem C6_open_arithmetic_amended_witness :
    ([([107], 41, 43)] : List (List Nat × Nat × Nat))
      = specIdxFrom oneRecordFile 0 (headerVal oneRecordFile) := by
  have h := C6_open_arithmetic_amended oneRecordFile true defaultDecoder
    ⟨[([107], 41, 43)], oneRecordFile, true, defaultDecoder⟩ rfl
  exact h

theorem readOffsetsAux_short (f : List Nat) :
    ∀ (cnt i0 : Nat), 1 ≤ cnt → f.length < (i0 + cnt + 1) * 8 →
      readOffsetsAux f i0 cnt = none := by
  intro cnt
  induction cnt with
  | zero => intro i0 h1 _; omega
  | succ cnt ih =>
    intro i0 _ hlen
    simp only [readOffsetsAux]
    by_cases hfirst : f.length < (i0 + 2) * 8
    · have hu : unpack64 (pyslice f ((i0 + 1) * 8) ((i0 + 2) * 8)) = none := by
        rw [unpack64, if_neg]
        rw [pyslice_length]
        omega
      rw [hu]
    · have hcnt : 1 ≤ cnt := by omega
      cases hu : unpack64 (pyslice f ((i0 + 1) * 8) ((i0 + 2) * 8)) with
      | none => rfl
      | some v => simp only [ih (i0 + 1) hcnt (by omega)]

theorem readOffsetsAux_take (l : List Nat) (t : Nat) :
    ∀ (cnt i0 : Nat), (i0 + cnt + 1) * 8 ≤ t →
      readOffsetsAux (l.take t) i0 cnt = readOffsetsAux l i0 cnt := by
  intro cnt
  induction cnt with
  | zero => intro i0 _; rfl
  | succ cnt ih =>
    intro i0 hle
    simp only [readOffsetsAux, pyslice_take l ((i0 + 1) * 8) ((i0 + 2) * 8) t (by omega),
      ih (i0 + 1) (by omega)]

theorem createdFile_length (pairs : List (List Nat × List Nat)) :
    (createdFile pairs).length = dsoOf pairs + (cLens pairs).sum := by
  simp [createdFile, dsoOf, dkosOf, kLens, cLens, List.map_map, Function.comp_def]
  ring

theorem initLoop_trunc (pairs : List (List Nat × List Nat))
    (hvk : ∀ p ∈ pairs, ValidStr p.1)
    (hval : (cLens pairs).sum < 2 ^ 64)
    (t : Nat) (ht1 : dkosOf pairs ≤ t) (ht2 : t < dsoOf pairs) :
    ∀ (suffix : List (List Nat × List Nat)) (i0 : Nat),
      suffix = pairs.drop i0 → i0 + suffix.length = pairs.length → 1 ≤ suffix.length →
      initLoop ((createdFile pairs).take t) (8 * (pairs.length + 2)) (dkosOf pairs)
          (dsoOf pairs) (prefixFrom 0 (kLens pairs)) i0 suffix.length
        = .error .structError := by
  intro suffix
  induction suffix with
  | nil => intro i0 _ _ h1; simp at h1
  | cons p rest ih =>
    intro i0 hdrop hlen _
    simp only [List.length_cons] at hlen
    have hi0 : i0 < pairs.length := by omega
    have hmem : p ∈ pairs := by
      refine List.drop_subset i0 pairs ?_
      rw [← hdrop]
      exact List.mem_cons_self p rest
    have hGlen : ((createdFile pairs).take t).length = t := by
      rw [List.length_take]
      have hfl := createdFile_length pairs
      omega
    have hko1 : (prefixFrom 0 (kLens pairs)).getD i0 0 = sumTake (kLens pairs) i0 := by
      rw [prefixFrom_getD 0 _ i0 (by simp; omega), Nat.zero_add]
    have hko2 : (prefixFrom 0 (kLens pairs)).getD (i0 + 1) 0
        = sumTake (kLens pairs) (i0 + 1) := by
      rw [prefixFrom_getD 0 _ (i0 + 1) (by simp; omega), Nat.zero_add]
    have hkgetD : (pairs.map keyBytes).getD i0 [] = keyBytes p := by
      rw [getD_eq_headD_drop, ← List.map_drop, ← hdrop]
      rfl
    have hdkos_eq : dkosOf pairs = 8 * (pairs.length + 2) + (kLens pairs).sum := rfl
    have hkeyend : 8 * (pairs.length + 2) + sumTake (kLens pairs) (i0 + 1) ≤ t := by
      have hs := sumTake_le_sum (kLens pairs) (i0 + 1)
      omega
    have hkeyG : utf8Decode (pyslice ((createdFile pairs).take t)
        (8 * (pairs.length + 2) + (prefixFrom 0 (kLens pairs)).getD i0 0)
        (8 * (pairs.length + 2) + (prefixFrom 0 (kLens pairs)).getD (i0 + 1) 0))
        = some p.1 := by
      rw [hko1, hko2, pyslice_take _ _ _ t hkeyend, createdFile_keySlice pairs i0 hi0,
        hkgetD, keyBytes, utf8Decode_utf8Encode p.1 (hvk p hmem)]
    simp only [List.length_cons, initLoop, hkeyG]
    by_cases hstart : t < dkosOf pairs + (i0 + 1) * 8
    · have hu : unpack64 (pyslice ((createdFile pairs).take t)
          (dkosOf pairs + i0 * 8) (dkosOf pairs + (i0 + 1) * 8)) = none := by
        rw [unpack64, if_neg]
        rw [pyslice_length, hGlen]
        omega
      simp only [hu]
    · have hstartG : unpack64 (pyslice ((createdFile pairs).take t)
          (dkosOf pairs + i0 * 8) (dkosOf pairs + (i0 + 1) * 8))
          = some (sumTake (cLens pairs) i0) := by
        rw [pyslice_take _ _ _ t (by omega)]
        exact createdFile_valueOffset pairs i0 (by omega) hval
      simp only [hstartG]
      by_cases hend : t < dkosOf pairs + (i0 + 2) * 8
      · have hu : unpack64 (pyslice ((createdFile pairs).take t)
            (dkosOf pairs + (i0 + 1) * 8) (dkosOf pairs + (i0 + 2) * 8)) = none := by
          rw [unpack64, if_neg]
          rw [pyslice_length, hGlen]
          omega
        simp only [hu]
      · have hendG : unpack64 (pyslice ((createdFile pairs).take t)
            (dkosOf pairs + (i0 + 1) * 8) (dkosOf pairs + (i0 + 2) * 8))
            = some (sumTake (cLens pairs) (i0 + 1)) := by
          rw [pyslice_take _ _ _ t (by omega)]
          have h2 := createdFile_valueOffset pairs (i0 + 1) (by omega) hval
          rw [show i0 + 1 + 1 = i0 + 2 from rfl] at h2
          exact h2
        simp only [hendG]
        cases rest with
        | nil =>
          exfalso
          have hlast : i0 + 1 = pairs.length := by
            simp only [List.length_nil] at hlen
            omega
          have hdso_eq : dsoOf pairs = dkosOf pairs + 8 * (pairs.length + 1) := rfl
          omega
        | cons q rest2 =>
          have hdrop' : pairs.drop (i0 + 1) = q :: rest2 := by
            have h1 : (pairs.drop i0).drop 1 = pairs.drop (i0 + 1) := List.drop_drop 1 i0 pairs
            rw [← h1, ← hdrop, List.drop_one]
            rfl
          rw [ih (i0 + 1) hdrop'.symm (by simp only [List.length_cons] at *; omega) (by simp)]

/-- C3 (amended): a file whose bytes cannot satisfy the header and
key-offset table its declared `record_count` requires makes `__init__`
fail — but with an uncaught `struct.error`, not the documented
`ForkAwareDict.Error` — and no store is constructed; likewise a created
file with at least one record truncated anywhere inside its value-offset
table.  (Internally inconsistent — non-monotonic or out-of-range — offset
tables are NOT rejected: see the counterexample.) -/
theorem C3_truncation_amended {V : Type} (f : List Nat) (dec : List Nat → DecRes V)
    (pairs : List (List Nat × List Nat)) (t : Nat)
    (hvk : ∀ p ∈ pairs, ValidStr p.1)
    (hn : pairs.length < 2 ^ 64)
    (hkey : (kLens pairs).sum < 2 ^ 64)
    (hval : (cLens pairs).sum < 2 ^ 64) :
    (f.length < 8 * (headerVal f + 2) → init f true dec = .error .structError)
    ∧ (1 ≤ pairs.length → dkosOf pairs ≤ t → t < dsoOf pairs →
        init ((createdFile pairs).take t) true defaultDecoder = .error .structError) := by
  constructor
  · intro hshort
    rw [init]
    simp only [Bool.not_true, Bool.false_and, Bool.false_eq_true, if_false]
    rcases Nat.lt_or_ge f.length 8 with h8 | h8
    · have hu : unpack64 (pyslice f 0 8) = none := by
        rw [unpack64, if_neg]
        rw [pyslice_length]
        omega
      simp only [initCore, hu]
    · have hu : unpack64 (pyslice f 0 8) = some (headerVal f) := by
        rw [unpack64, if_pos]
        · rfl
        · rw [pyslice_length]
          omega
      have hro : readOffsetsAux f 0 (headerVal f + 1) = none :=
        readOffsetsAux_short f (headerVal f + 1) 0 (by omega) (by omega)
      simp only [initCore, hu, hro]
  · intro hne ht1 ht2
    have hdkos_eq : dkosOf pairs = 8 * (pairs.length + 2) + (kLens pairs).sum := rfl
    have hfl := createdFile_length pairs
    have hdso_eq : dsoOf pairs = dkosOf pairs + 8 * (pairs.length + 1) := rfl
    rw [init]
    simp only [Bool.not_true, Bool.false_and, Bool.false_eq_true, if_false]
    have hhead : unpack64 (pyslice ((createdFile pairs).take t) 0 8) = some pairs.length := by
      rw [pyslice_take _ _ _ t (by omega)]
      exact createdFile_header pairs hn
    have hro : readOffsetsAux ((createdFile pairs).take t) 0 (pairs.length + 1)
        = some (prefixFrom 0 (kLens pairs)) := by
      rw [readOffsetsAux_take _ t (pairs.length + 1) 0 (by omega)]
      exact createdFile_keysOffsets pairs hkey
    simp only [initCore, hhead, hro]
    have hlast : (prefixFrom 0 (kLens pairs)).getLastD 0 = (kLens pairs).sum := by
      rw [prefixFrom_getLastD, Nat.zero_add]
    rw [hlast]
    have e1 : 8 * (pairs.length + 2) + (kLens pairs).sum = dkosOf pairs := rfl
    rw [e1]
    have e2 : dkosOf pairs + (pairs.length + 1) * 8 = dsoOf pairs := by
      rw [hdso_eq]
      ring
    rw [e2]
    rw [initLoop_trunc pairs hvk hval t ht1 ht2 pairs 0 (by simp) (by simp) (by omega)]

/-- A 42-byte file declaring one record, with key `"k"` and an
out-of-range value-offset table: `ValueOffsets = [0, 5]` while only one
payload byte exists, so the record's range `(41, 46)` runs past the end
of the file (length 42). -/
def outOfRangeOffsetsFile : List Nat :=
  pack64 1 ++ pack64 0 ++ pack64 1 ++ [107] ++ pack64 0 ++ pack64 5 ++ [0]

/-- C3 counterexample: `__init__` does not validate offset tables — it
opens a file whose value-offset table points past the end of the file and
silently builds a wrong index (range `(41, 46)` in a 42-byte file), and
it also opens an empty-index file truncated in the middle of its
value-offset table (16 of 24 bytes) without any error: the claim that
such files always raise a FormatError is false. -/
theorem C3_counterexample :
    outOfRangeOffsetsFile.length = 42
    ∧ storePlainIndex (init outOfRangeOffsetsFile true defaultDecoder)
        = some [([107], 41, 46)]
    ∧ storePlainIndex (init (emptyIndexFile.take 16) true defaultDecoder) = some [] :=
  ⟨rfl, rfl, rfl⟩

theorem C3_truncation_amended_witness :
    init [5, 0, 0, 0, 0, 0, 0, 0] true defaultDecoder = .error .structError
    ∧ init ((createdFile [([107], [97])]).take 30) true defaultDecoder
        = .error .structError := by
  have h := C3_truncation_amended [5, 0, 0, 0, 0, 0, 0, 0] defaultDecoder
    [([107], [97])] 30 (by decide) (by decide) (by decide) (by decide)
  exact ⟨h.1 (by decide), h.2 (by decide) (by decide) (by decide)⟩

end ForkAwareDict
